import Mathlib

/-!
Verification development for the toucan workflow editor.

This file gives a shallow embedding of the workflow graph converter and
serializer (`src/lib/workflows/converter.ts`), the connection validator
(`FlowCanvas.isValidConnection` and `ComfyNode.isHandleValid`), and the
execution-monitor transitions, together with theorems settling the frozen
claims about them.

JavaScript numbers that can be `NaN` in the reachable code paths are
embedded as `Option Int` (`none` = `NaN`); all numeric document fields come
from JSON, which cannot encode `NaN`, so they carry `some`.  String
primitives (`Number.parseInt`, `String.prototype.split("-")`,
`toLowerCase`, decimal `toString`) are defined here by structural recursion
over character lists so that concrete instances evaluate in the kernel.
-/

namespace Toucan

/-- JS number that may be `NaN` (`none`). All comparisons with `NaN` are false. -/
abbrev JSNum := Option Int

/-- `x < 0` as JavaScript evaluates it: false when `x` is `NaN`. -/
def jsLtZero : JSNum → Bool
  | some n => decide (n < 0)
  | none => false

/-- Decimal digit value of a character, if it is `0`-`9`. -/
def charToDigit : Char → Option Nat
  | '0' => some 0 | '1' => some 1 | '2' => some 2 | '3' => some 3
  | '4' => some (4 : Nat)
  | '5' => some 5 | '6' => some 6 | '7' => some 7 | '8' => some 8 | '9' => some 9
  | _ => none

def isDigitCh (c : Char) : Bool := (charToDigit c).isSome

/-- Character of a decimal digit (argument taken mod 10 conceptually; only 0-9 used). -/
def digitChar : Nat → Char
  | 0 => '0' | 1 => '1' | 2 => '2' | 3 => '3' | 4 => '4'
  | 5 => '5' | 6 => '6' | 7 => '7' | 8 => '8' | _ => '9'

/-- Accumulating decimal value of a digit string. -/
def digitsValAux : Nat → List Char → Nat
  | a, [] => a
  | a, c :: cs => digitsValAux (10 * a + (charToDigit c).getD 0) cs

/-- Whitespace skipped by `Number.parseInt`. -/
def isWsCh (c : Char) : Bool := c = ' ' ∨ c = '\t' ∨ c = '\n' ∨ c = '\r'

/-- `Number.parseInt(s, 10)`: skip whitespace, optional sign, then the longest
digit run; `NaN` (`none`) when that run is empty. -/
def parseIntJS (s : String) : JSNum :=
  match s.data.dropWhile isWsCh with
  | [] => none
  | c :: rest =>
      if c = '-' then
        (if (rest.takeWhile isDigitCh).isEmpty then none
         else some (-(Int.ofNat (digitsValAux 0 (rest.takeWhile isDigitCh)))))
      else if c = '+' then
        (if (rest.takeWhile isDigitCh).isEmpty then none
         else some (Int.ofNat (digitsValAux 0 (rest.takeWhile isDigitCh))))
      else
        (if ((c :: rest).takeWhile isDigitCh).isEmpty then none
         else some (Int.ofNat (digitsValAux 0 ((c :: rest).takeWhile isDigitCh))))

/-- Digits of `n`, most significant first, driven by explicit fuel so that the
definition is structural. Called with fuel `n + 1 > n`. -/
def natDigitsGo : Nat → Nat → List Char
  | 0, _ => []
  | fuel + 1, n =>
      if n < 10 then [digitChar n]
      else natDigitsGo fuel (n / 10) ++ [digitChar (n % 10)]

def natToString (n : Nat) : String := String.mk (natDigitsGo (n + 1) n)

/-- JS `Number.prototype.toString` for integral values. -/
def intToString (i : Int) : String :=
  if i < 0 then "-" ++ natToString i.natAbs else natToString i.toNat

/-- Template-literal rendering of a possibly-`NaN` number. -/
def jsNumToString : JSNum → String
  | some i => intToString i
  | none => "NaN"

/-- `String.prototype.split` on a one-character separator, JS semantics:
`"" ↦ [""]`, separators at the ends produce empty components. -/
def splitChar (c : Char) : List Char → List (List Char)
  | [] => [[]]
  | x :: xs =>
      if x = c then [] :: splitChar c xs
      else
        match splitChar c xs with
        | r :: rs => (x :: r) :: rs
        | [] => [[x]]

def splitDash (s : String) : List String := (splitChar '-' s.data).map String.mk

/-- ASCII lowering, as applied by the validator to port type tags. -/
def lowerChar (c : Char) : Char :=
  if 'A' ≤ c ∧ c ≤ 'Z' then Char.ofNat (c.toNat + 32) else c

def toLowerJS (s : String) : String := String.mk (s.data.map lowerChar)

/-- `edge.id.match(/^e(\d+)$/)` followed by `parseInt` of the captured digits. -/
def matchEId (s : String) : Option Int :=
  match s.data with
  | [] => none
  | c :: rest =>
      if c = 'e' ∧ rest ≠ [] ∧ rest.all isDigitCh then some (Int.ofNat (digitsValAux 0 rest))
      else none

/-- Array indexing by a possibly-`NaN` JS number: `a[NaN]` and negative
indices are `undefined`. -/
def getJS (l : List α) : JSNum → Option α
  | some n => if n < 0 then none else l.get? n.toNat
  | none => none

/-- In-place update of a list element (JS mutation of `a[i]`). -/
def listModify (f : α → α) : Nat → List α → List α
  | _, [] => []
  | 0, x :: xs => f x :: xs
  | n + 1, x :: xs => x :: listModify f n xs

/-- Update through a possibly-`NaN` index; no-op when out of range. -/
def setAtJS (l : List α) (i : JSNum) (f : α → α) : List α :=
  match i with
  | some n => if n < 0 then l else listModify f n.toNat l
  | none => l

/-! ### Insertion-ordered string-keyed map (JS `Map` with `string` keys) -/

/-- `Map.set`: replace in place when the key is present, else append. -/
def alSet [DecidableEq κ] (m : List (κ × α)) (k : κ) (v : α) : List (κ × α) :=
  if m.any (fun p => p.1 = k) then
    m.map (fun p => if p.1 = k then (k, v) else p)
  else m ++ [(k, v)]

/-- `Map.get`: value of the first (unique) entry with the key. -/
def alGet [DecidableEq κ] (m : List (κ × α)) (k : κ) : Option α :=
  (m.find? (fun p => p.1 = k)).map (fun p => p.2)

def alHas [DecidableEq κ] (m : List (κ × α)) (k : κ) : Bool :=
  m.any (fun p => p.1 = k)

abbrev StrMap (α : Type) := List (String × α)

def mapSet (m : StrMap α) (k : String) (v : α) : StrMap α := alSet m k v

def mapGet (m : StrMap α) (k : String) : Option α := alGet m k

def mapHas (m : StrMap α) (k : String) : Bool := alHas m k

/-- Insertion-ordered JS `Map` with numeric keys (node lookup tables).
`NaN` keys never occur in the tables built here, so a `NaN` probe misses. -/
abbrev IntMap (α : Type) := List (Int × α)

def intMapSet (m : IntMap α) (k : Int) (v : α) : IntMap α := alSet m k v

def intMapGet (m : IntMap α) : JSNum → Option α
  | some k => alGet m k
  | none => none

/-! ### Workflow document model (`src/lib/workflows/types.ts`) -/

/-- JSON scalar stored in `widgets_values` / `properties`; the converter and
serializer move these values around without inspecting their shape, so
composite JSON values are not needed by any embedded operation. -/
inductive JVal where
  | null
  | bool (b : Bool)
  | num (n : Int)
  | str (s : String)
deriving DecidableEq

structure NodeWidget where
  name : String
deriving DecidableEq

structure NodeInput where
  localized_name : String
  name : String
  type : String
  link : Option Int
  widget : Option NodeWidget
deriving DecidableEq

structure NodeOutput where
  localized_name : String
  name : String
  type : String
  links : Option (List Int)
deriving DecidableEq

structure WorkflowNode where
  id : Int
  type : String
  pos : Int × Int
  size : Int × Int
  flags : List (String × JVal)
  order : Int
  mode : Int
  inputs : List NodeInput
  outputs : List NodeOutput
  title : Option String
  properties : List (String × JVal)
  widgets_values : List JVal
deriving DecidableEq

/-- `[link_id, from_node_id, from_output_index, to_node_id, to_input_index, type]`.
The four middle fields are `JSNum` because the serializer can write `NaN`
into them; documents parsed from JSON always carry `some`. -/
structure WorkflowLink where
  lid : Int
  fromNode : JSNum
  fromPort : JSNum
  toNode : JSNum
  toPort : JSNum
  ty : String
deriving DecidableEq

structure WorkflowGroup where
  title : String
  bounding : Int × Int × Int × Int
  color : String
  font_size : Option Int
  locked : Option Bool
deriving DecidableEq

structure WorkflowDefinition where
  id : String
  revision : Int
  last_node_id : Int
  last_link_id : Int
  nodes : List WorkflowNode
  links : List WorkflowLink
  groups : List WorkflowGroup
  config : List (String × JVal)
  extra : List (String × JVal)
  version : Int
deriving DecidableEq

/-! ### React Flow graph model (`WorkflowNodeData`, `Node`, `Edge`) -/

structure FlowInput where
  name : String
  type : String
  widget : Option NodeWidget
  link : Option Int
deriving DecidableEq

structure FlowOutput where
  name : String
  type : String
deriving DecidableEq

/-- `widgetValues: unknown[] | Record<string, unknown>`. -/
inductive WidgetVals where
  | varr (l : List JVal)
  | vrec (m : StrMap JVal)
deriving DecidableEq

structure WorkflowNodeData where
  label : String
  type : String
  inputs : List FlowInput
  outputs : List FlowOutput
  widgetValues : WidgetVals
  properties : List (String × JVal)
deriving DecidableEq

structure FlowNode where
  id : String
  type : String
  position : Int × Int
  data : WorkflowNodeData
  width : Int
  height : Int
deriving DecidableEq

structure FlowEdge where
  id : String
  source : String
  target : String
  sourceHandle : Option String
  targetHandle : Option String
  type : String
  animated : Bool
  label : String
deriving DecidableEq

/-! ### Graph converter (`convertWorkflowToFlow`) -/

/-- The loop of `convertNodeToFlowNode` that projects the positional
`widgets_values` array into a name-keyed record, consuming one value per
widget-bearing input while `widgetIndex < widgets_values.length`. -/
def widgetRecordGo (acc : StrMap JVal) (widgetIndex : Nat) :
    List NodeInput → List JVal → StrMap JVal
  | [], _ => acc
  | input :: rest, wvs =>
      if input.widget.isSome ∧ widgetIndex < wvs.length then
        widgetRecordGo (mapSet acc input.name ((wvs.get? widgetIndex).getD JVal.null))
          (widgetIndex + 1) rest wvs
      else
        widgetRecordGo acc widgetIndex rest wvs

/-- `node.title || node.type` (`""` is falsy). -/
def jsTitleOr (title : Option String) (type' : String) : String :=
  match title with
  | some t => if t = "" then type' else t
  | none => type'

def convertNodeToFlowNode (node : WorkflowNode) : FlowNode :=
  { id := intToString node.id
    type := "workflow"
    position := node.pos
    data :=
      { label := jsTitleOr node.title node.type
        type := node.type
        inputs := node.inputs.map (fun input =>
          { name := input.name, type := input.type
            widget := input.widget, link := input.link })
        outputs := node.outputs.map (fun output =>
          { name := output.name, type := output.type })
        widgetValues := WidgetVals.vrec (widgetRecordGo [] 0 node.inputs node.widgets_values)
        properties := node.properties }
    width := node.size.1
    height := node.size.2 }

/-- `new Map(nodes.map((node) => [node.id, node]))`; later entries win. -/
def nodeIdMap (nodes : List WorkflowNode) : IntMap WorkflowNode :=
  nodes.foldl (fun m node => intMapSet m node.id node) []

/-- The edge record pushed by `convertLinksToEdges` for one link. -/
def edgeOfLink (link : WorkflowLink) : FlowEdge :=
  { id := "e" ++ intToString link.lid
    source := jsNumToString link.fromNode
    target := jsNumToString link.toNode
    sourceHandle :=
      some (jsNumToString link.fromNode ++ "-output-" ++ jsNumToString link.fromPort)
    targetHandle :=
      some (jsNumToString link.toNode ++ "-input-" ++ jsNumToString link.toPort)
    type := "smoothstep"
    animated := false
    label := link.ty }

def convertLinksToEdges (nodes : List WorkflowNode) (definition : WorkflowDefinition) :
    List FlowEdge :=
  let nodeMap := nodeIdMap nodes
  definition.links.filterMap (fun link =>
    match intMapGet nodeMap link.fromNode, intMapGet nodeMap link.toNode with
    | some _, some _ => some (edgeOfLink link)
    | _, _ => none)

def convertWorkflowToFlow (definition : WorkflowDefinition) :
    List FlowNode × List FlowEdge :=
  (definition.nodes.map convertNodeToFlowNode,
   convertLinksToEdges definition.nodes definition)

/-! ### Graph serializer (`buildWorkflowFromFlow`) -/

/-- `structuredClone`: a deep copy.  On immutable values this is the
identity; the aliasing consequences of cloning (the returned document shares
no mutable object with the input) are modelled explicitly by the heap
embedding `buildWorkflowFromFlowHeap` below. -/
def structuredCloneDef (d : WorkflowDefinition) : WorkflowDefinition := d

/-- `new Map(flowNodes.map((node) => [node.id, node]))`. -/
def flowNodeMapOf (flowNodes : List FlowNode) : StrMap FlowNode :=
  flowNodes.foldl (fun m node => mapSet m node.id node) []

/-- `new Map(workflow.nodes.map((node) => [node.id.toString(), node]))`. -/
def workflowNodeMapOf (nodes : List WorkflowNode) : StrMap WorkflowNode :=
  nodes.foldl (fun m node => mapSet m (intToString node.id) node) []

/-- The two link-id allocation passes: reuse ids of edges matching
`/^e(\d+)$/` (raising the watermark past them), then mint fresh ids for the
remaining edges.  Returns `(edgeLinkMap, nextLinkId)`. -/
def allocateLinkIds (lastLinkId : Int) (flowEdges : List FlowEdge) : StrMap Int × Int :=
  let p1 := flowEdges.foldl
    (fun (acc : StrMap Int × Int) edge =>
      match matchEId edge.id with
      | some existingLinkId =>
          (mapSet acc.1 edge.id existingLinkId, max acc.2 (existingLinkId + 1))
      | none => acc)
    ([], lastLinkId + 1)
  flowEdges.foldl
    (fun (acc : StrMap Int × Int) edge =>
      if mapHas acc.1 edge.id then acc else (mapSet acc.1 edge.id acc.2, acc.2 + 1))
    p1

/-- Construction of one record of the new links array from an edge;
`none` when the edge is dropped by the `fromOutputIndex < 0 ||
toInputIndex < 0` guard.  `Number.parseInt` of an unparseable handle is
`NaN`, which that guard does not catch. -/
def edgeToLink (edgeLinkMap : StrMap Int) (flowNodeMap : StrMap FlowNode)
    (edge : FlowEdge) : Option WorkflowLink :=
  let linkId := (mapGet edgeLinkMap edge.id).getD 0
  let fromNodeId := parseIntJS edge.source
  let toNodeId := parseIntJS edge.target
  let sourceHandleParts := splitDash (edge.sourceHandle.getD "")
  let targetHandleParts := splitDash (edge.targetHandle.getD "")
  let fromOutputIndex := parseIntJS (sourceHandleParts.getLastD "-1")
  let toInputIndex := parseIntJS (targetHandleParts.getLastD "-1")
  if jsLtZero fromOutputIndex ∨ jsLtZero toInputIndex then none
  else
    let linkType :=
      match mapGet flowNodeMap edge.source with
      | some sourceFlowNode =>
          match getJS sourceFlowNode.data.outputs fromOutputIndex with
          | some output => output.type
          | none => "*"
      | none => "*"
    some
      { lid := linkId, fromNode := fromNodeId, fromPort := fromOutputIndex
        toNode := toNodeId, toPort := toInputIndex, ty := linkType }

/-- The per-node widget rebuild: one entry per widget-bearing input, in
input order; a missing record entry becomes an explicit `null`. -/
def rebuildWidgetValues (widgetValues : WidgetVals) (inputs : List NodeInput) : List JVal :=
  inputs.foldl
    (fun orderedValues input =>
      if input.widget.isSome then
        orderedValues ++
          [match widgetValues with
           | WidgetVals.vrec m => (mapGet m input.name).getD JVal.null
           | WidgetVals.varr l => (l.get? orderedValues.length).getD JVal.null]
      else orderedValues)
    []

/-- The body of the "update each node" loop: overwrite `pos`, rebuild
`widgets_values`, clear every input `link` and every output `links`. -/
def nodeUpdate (workflowNode : WorkflowNode) (flowNode : FlowNode) : WorkflowNode :=
  { workflowNode with
    pos := flowNode.position
    widgets_values := rebuildWidgetValues flowNode.data.widgetValues workflowNode.inputs
    inputs := workflowNode.inputs.map (fun input => { input with link := none })
    outputs := workflowNode.outputs.map (fun output => { output with links := some [] }) }

/-- The `targetNode?.inputs[toInputIndex].link = linkId` write of the
denormalization rebuild, applied to one node when it is the one `find`
returns. -/
def applyLinkNodeTarget (link : WorkflowLink) (n : WorkflowNode) : WorkflowNode :=
  if some n.id = link.toNode then
    match getJS n.inputs link.toPort with
    | some _ =>
        let newInputs :=
          setAtJS n.inputs link.toPort (fun input => { input with link := some link.lid })
        { n with inputs := newInputs }
    | none => n
  else n

/-- The `sourceNode?.outputs[fromOutputIndex].links.push(linkId)` write
(resetting a `null` list to `[]` first). -/
def applyLinkNodeSource (link : WorkflowLink) (n : WorkflowNode) : WorkflowNode :=
  if some n.id = link.fromNode then
    match getJS n.outputs link.fromPort with
    | some _ =>
        let newOutputs :=
          setAtJS n.outputs link.fromPort
            (fun output => { output with links := some ((output.links.getD []) ++ [link.lid]) })
        { n with outputs := newOutputs }
    | none => n
  else n

/-- Both denormalization writes of one link on one node. -/
def applyLinkNode (link : WorkflowLink) (n : WorkflowNode) : WorkflowNode :=
  applyLinkNodeSource link (applyLinkNodeTarget link n)

/-- One step of the denormalization rebuild.  The source mutates the node
object returned by `find` (the first match); because any two entries of the
node list with equal ids are the same shared object there, updating every
entry with a matching id is observationally identical, and is how the
mutation is rendered on immutable lists. -/
def applyLink (nodes : List WorkflowNode) (link : WorkflowLink) : List WorkflowNode :=
  (nodes.map (applyLinkNodeTarget link)).map (applyLinkNodeSource link)

def buildWorkflowFromFlow (baseWorkflow : WorkflowDefinition)
    (flowNodes : List FlowNode) (flowEdges : List FlowEdge) : WorkflowDefinition :=
  let workflow := structuredCloneDef baseWorkflow
  let flowNodeMap := flowNodeMapOf flowNodes
  let workflowNodeMap := workflowNodeMapOf workflow.nodes
  let filteredNodes := flowNodes.filterMap (fun flowNode => mapGet workflowNodeMap flowNode.id)
  let alloc := allocateLinkIds workflow.last_link_id flowEdges
  let newLinks := flowEdges.filterMap (edgeToLink alloc.1 flowNodeMap)
  let updatedNodes := filteredNodes.map (fun workflowNode =>
    match mapGet flowNodeMap (intToString workflowNode.id) with
    | some flowNode => nodeUpdate workflowNode flowNode
    | none => workflowNode)
  let finalNodes := newLinks.foldl applyLink updatedNodes
  { workflow with
    nodes := finalNodes
    links := newLinks
    last_link_id := alloc.2 - 1 }

/-! Named pipeline stages of `buildWorkflowFromFlow`, definitionally equal
to its `let` bindings (used to decompose proofs about it). -/

def filteredNodesOf (baseWorkflow : WorkflowDefinition) (flowNodes : List FlowNode) :
    List WorkflowNode :=
  flowNodes.filterMap (fun flowNode => mapGet (workflowNodeMapOf baseWorkflow.nodes) flowNode.id)

def newLinksOf (baseWorkflow : WorkflowDefinition) (flowNodes : List FlowNode)
    (flowEdges : List FlowEdge) : List WorkflowLink :=
  flowEdges.filterMap
    (edgeToLink (allocateLinkIds baseWorkflow.last_link_id flowEdges).1 (flowNodeMapOf flowNodes))

def updatedNodesOf (baseWorkflow : WorkflowDefinition) (flowNodes : List FlowNode) :
    List WorkflowNode :=
  (filteredNodesOf baseWorkflow flowNodes).map (fun workflowNode =>
    match mapGet (flowNodeMapOf flowNodes) (intToString workflowNode.id) with
    | some flowNode => nodeUpdate workflowNode flowNode
    | none => workflowNode)

/-- The fields of a node that the denormalization rebuild can never change:
id, widget values, the widget markers of its inputs, and the lengths of its
port arrays. -/
def nodeSkel (n : WorkflowNode) :
    Int × List JVal × List (Option NodeWidget) × Nat × Nat :=
  (n.id, n.widgets_values, n.inputs.map (fun input => input.widget),
   n.inputs.length, n.outputs.length)

/-! ### Connection validator (`FlowCanvas.isValidConnection`, `ComfyNode.isHandleValid`) -/

/-- A ReactFlow `Connection`/`Edge` as read by the validator: node ids may be
null, handle ids may be null. -/
structure FlowConnection where
  source : Option String
  target : Option String
  sourceHandle : Option String
  targetHandle : Option String
deriving DecidableEq

/-- JS falsiness of a nullable string: `null`/`undefined` and `""`. -/
def jsFalsyStr : Option String → Bool
  | none => true
  | some s => s = ""

/-- `handleId.split("-").pop() || "-1"` (note `||`: an empty last component
falls back to `"-1"`). -/
def handleIdxOf (handleId : String) : JSNum :=
  let popped := (splitDash handleId).getLastD ""
  parseIntJS (if popped = "" then "-1" else popped)

def isValidConnection (nodes : List FlowNode) (connection : FlowConnection) : Bool :=
  if jsFalsyStr connection.source ∨ jsFalsyStr connection.target then false
  else
    let source := connection.source.getD ""
    let target := connection.target.getD ""
    match nodes.find? (fun n => n.id = source), nodes.find? (fun n => n.id = target) with
    | some sourceNode, some targetNode =>
        let sourceHandleId := if jsFalsyStr connection.sourceHandle then "" else connection.sourceHandle.getD ""
        let targetHandleId := if jsFalsyStr connection.targetHandle then "" else connection.targetHandle.getD ""
        let sourceIdx := handleIdxOf sourceHandleId
        let targetIdx := handleIdxOf targetHandleId
        if jsLtZero sourceIdx ∨ jsLtZero targetIdx then false
        else
          match getJS sourceNode.data.outputs sourceIdx, getJS targetNode.data.inputs targetIdx with
          | some sourceOutput, some targetInput =>
              toLowerJS sourceOutput.type = toLowerJS targetInput.type
          | _, _ => false
    | _, _ => false

/-- `ComfyNode.isHandleValid`: decides whether a handle is a legal drop
target for the connection in progress.  `connectingType` is the lowercased
type of the port the drag started from (`null`/`""` when unknown). -/
def isHandleValid (isConnecting : Bool) (connectingType : Option String)
    (isConnectingFromSource : Bool) (handleType : String) (isSourceHandle : Bool) : Bool :=
  if !isConnecting ∨ jsFalsyStr connectingType then true
  else if isConnectingFromSource = isSourceHandle then false
  else toLowerJS handleType = connectingType.getD ""

/-- The `sourceHandleId` binding of `isValidConnection` (`?? ""` on a falsy
handle id). -/
def sourceHandleIdOf (conn : FlowConnection) : String :=
  if jsFalsyStr conn.sourceHandle then "" else conn.sourceHandle.getD ""

/-- The `targetHandleId` binding of `isValidConnection`. -/
def targetHandleIdOf (conn : FlowConnection) : String :=
  if jsFalsyStr conn.targetHandle then "" else conn.targetHandle.getD ""

/-! ### Execution monitor (claim C7) -/

inductive ExecPhase where
  | idle | queued | running | error | interrupted
deriving DecidableEq

inductive NodeStatus where
  | running | cached | completed | error | interrupted
deriving DecidableEq

/-- Modelled from the spec: the `useExecutionMonitor` hook is not among the
provided sources (only its test and callers are); this state record follows
§3 "ExecutionState" of the specification. -/
structure ExecutionState where
  phase : ExecPhase
  promptId : Option String
  startedAt : Option Int
  queueRemaining : Option Int
  nodeStatuses : StrMap NodeStatus
  nodeProgress : StrMap (Int × Int)
  nodeOutputs : StrMap (List JVal)
  nodeErrors : StrMap String
deriving DecidableEq

def initialExecutionState : ExecutionState :=
  { phase := ExecPhase.idle, promptId := none, startedAt := none, queueRemaining := none
    nodeStatuses := [], nodeProgress := [], nodeOutputs := [], nodeErrors := [] }

/-- Modelled from the spec: `status` event — "update `queueRemaining` from
the payload; does not change `phase`".  The argument is the payload's
`status.exec_info.queue_remaining` field. -/
def applyStatusEvent (s : ExecutionState) (queueRemaining : Option Int) : ExecutionState :=
  { s with queueRemaining := queueRemaining }

/-- Modelled from the spec: local `markPromptQueued(promptId)` —
"phase=`queued`, `promptId` set, `queueRemaining` preserved from last known
value (not reset), per-node maps preserved". -/
def markPromptQueued (s : ExecutionState) (promptId : String) : ExecutionState :=
  { s with phase := ExecPhase.queued, promptId := some promptId }

/-! ### Heap embedding of the serializer (frame property, claim C9)

`buildWorkflowFromFlow` mutates node objects through references obtained
from maps built over the *clone's* node array.  To state that the base
document is never mutated, node objects are given identity: a `NodeStore`
is a heap of node objects addressed by index, and a `HeapDoc`'s `nodes`
array holds references into it.  All other fields are immutable values. -/

abbrev NodeStore := List WorkflowNode

structure HeapDoc where
  id : String
  revision : Int
  last_node_id : Int
  last_link_id : Int
  nodes : List Nat
  links : List WorkflowLink
  groups : List WorkflowGroup
  config : List (String × JVal)
  extra : List (String × JVal)
  version : Int
deriving DecidableEq

/-- `structuredClone`: fresh node objects are allocated at the end of the
store for every node of the document, and the copy's `nodes` array points
at them (the deep copy shares no mutable object with the original). -/
def cloneDocHeap (h : NodeStore) (d : HeapDoc) : NodeStore × HeapDoc :=
  let vals := d.nodes.filterMap (fun r => h.get? r)
  (h ++ vals, { d with nodes := List.range' h.length vals.length })

/-- `new Map(workflow.nodes.map((node) => [node.id.toString(), node]))` on a
heap document: values are the node *references*, keys their id strings. -/
def heapWorkflowNodeMap (h1 : NodeStore) (refs : List Nat) : StrMap Nat :=
  refs.foldl
    (fun m r =>
      match h1.get? r with
      | some node => mapSet m (intToString node.id) r
      | none => m) []

/-- The per-node update loop body, writing through one reference. -/
def heapNodeUpdateStep (flowNodeMap : StrMap FlowNode) (hh : NodeStore) (r : Nat) :
    NodeStore :=
  match hh.get? r with
  | some workflowNode =>
      match mapGet flowNodeMap (intToString workflowNode.id) with
      | some flowNode => hh.set r (nodeUpdate workflowNode flowNode)
      | none => hh
  | none => hh

/-- `workflow.nodes.find((n) => n.id === toNodeId)` followed by the guarded
input write, through the found reference. -/
def heapLinkTarget (filteredNodes : List Nat) (hh : NodeStore) (link : WorkflowLink) :
    NodeStore :=
  match filteredNodes.find? (fun r =>
      match hh.get? r with
      | some n => decide (some n.id = link.toNode)
      | none => false) with
  | some r =>
      match hh.get? r with
      | some n =>
          match getJS n.inputs link.toPort with
          | some _ =>
              let newInputs :=
                setAtJS n.inputs link.toPort (fun input => { input with link := some link.lid })
              hh.set r { n with inputs := newInputs }
          | none => hh
      | none => hh
  | none => hh

/-- `workflow.nodes.find((n) => n.id === fromNodeId)` followed by the
guarded output push, through the found reference. -/
def heapLinkSource (filteredNodes : List Nat) (hh : NodeStore) (link : WorkflowLink) :
    NodeStore :=
  match filteredNodes.find? (fun r =>
      match hh.get? r with
      | some n => decide (some n.id = link.fromNode)
      | none => false) with
  | some r =>
      match hh.get? r with
      | some n =>
          match getJS n.outputs link.fromPort with
          | some _ =>
              let newOutputs :=
                setAtJS n.outputs link.fromPort
                  (fun output => { output with links := some ((output.links.getD []) ++ [link.lid]) })
              hh.set r { n with outputs := newOutputs }
          | none => hh
      | none => hh
  | none => hh

def heapLinkStep (filteredNodes : List Nat) (hh : NodeStore) (link : WorkflowLink) :
    NodeStore :=
  heapLinkSource filteredNodes (heapLinkTarget filteredNodes hh link) link

/-- The heap rendering of `buildWorkflowFromFlow`: identical pipeline, but
node updates are writes through references of the cloned document, and the
denormalization rebuild writes through the first reference whose node
matches (`workflow.nodes.find`). -/
def buildWorkflowFromFlowHeap (h : NodeStore) (baseWorkflow : HeapDoc)
    (flowNodes : List FlowNode) (flowEdges : List FlowEdge) : NodeStore × HeapDoc :=
  let c := cloneDocHeap h baseWorkflow
  let h1 := c.1
  let workflow := c.2
  let flowNodeMap := flowNodeMapOf flowNodes
  let workflowNodeMap := heapWorkflowNodeMap h1 workflow.nodes
  let filteredNodes := flowNodes.filterMap (fun flowNode => mapGet workflowNodeMap flowNode.id)
  let alloc := allocateLinkIds workflow.last_link_id flowEdges
  let newLinks := flowEdges.filterMap (edgeToLink alloc.1 flowNodeMap)
  let h2 := filteredNodes.foldl (heapNodeUpdateStep flowNodeMap) h1
  let h3 := newLinks.foldl (heapLinkStep filteredNodes) h2
  (h3, { workflow with nodes := filteredNodes, links := newLinks, last_link_id := alloc.2 - 1 })

/-! ### Claim-level predicates -/

/-- Some node of the array carries this id (the link endpoint resolves). -/
def resolvesIn (nodes : List WorkflowNode) (k : JSNum) : Prop :=
  ∃ n ∈ nodes, some n.id = k

instance (nodes : List WorkflowNode) (k : JSNum) : Decidable (resolvesIn nodes k) := by
  unfold resolvesIn
  infer_instance

/-- Invariant I1 as the claim states it: for every link record, the target
node exists and its input back-reference is the link id, and the source
node exists and its output forward-references contain the link id. -/
def I1Claim (w : WorkflowDefinition) : Prop :=
  ∀ link ∈ w.links,
    (∃ n ∈ w.nodes, some n.id = link.toNode ∧
       (getJS n.inputs link.toPort).map (fun input => input.link) = some (some link.lid)) ∧
    (∃ n ∈ w.nodes, some n.id = link.fromNode ∧
       (getJS n.outputs link.fromPort).map
         (fun output => decide (link.lid ∈ output.links.getD [])) = some true)

instance (w : WorkflowDefinition) : Decidable (I1Claim w) := by
  unfold I1Claim
  infer_instance

def linkIdsDistinct (w : WorkflowDefinition) : Prop :=
  w.links.Pairwise (fun a b => a.lid ≠ b.lid)

def nodeIdsDistinct (w : WorkflowDefinition) : Prop :=
  w.nodes.Pairwise (fun a b => a.id ≠ b.id)

def lastLinkIdDominates (w : WorkflowDefinition) : Prop :=
  ∀ link ∈ w.links, link.lid ≤ w.last_link_id

instance (w : WorkflowDefinition) : Decidable (linkIdsDistinct w) := by
  unfold linkIdsDistinct
  infer_instance

instance (w : WorkflowDefinition) : Decidable (nodeIdsDistinct w) := by
  unfold nodeIdsDistinct
  infer_instance

instance (w : WorkflowDefinition) : Decidable (lastLinkIdDominates w) := by
  unfold lastLinkIdDominates
  infer_instance

/-- The connectivity tuple of a link record, as named by the round-trip claim. -/
def connTuple (l : WorkflowLink) : JSNum × JSNum × JSNum × JSNum × String :=
  (l.fromNode, l.fromPort, l.toNode, l.toPort, l.ty)

/-- Equality of connectivity tuple sets. -/
def sameConnectivity (a b : WorkflowDefinition) : Prop :=
  (∀ t ∈ a.links.map connTuple, t ∈ b.links.map connTuple) ∧
  (∀ t ∈ b.links.map connTuple, t ∈ a.links.map connTuple)

/-- Converter followed by serializer on the same document. -/
def roundTrip (D : WorkflowDefinition) : WorkflowDefinition :=
  buildWorkflowFromFlow D (convertWorkflowToFlow D).1 (convertWorkflowToFlow D).2

/-- `x` is a non-negative (non-`NaN`) JS number. -/
def jsGeZero : JSNum → Bool
  | some n => decide (0 ≤ n)
  | none => false

/-- The type tag of the resolved source node's output at the link's source
port (what the serializer copies into the rebuilt record). -/
def resolvedSourceType (D : WorkflowDefinition) (l : WorkflowLink) : Option String :=
  match intMapGet (nodeIdMap D.nodes) l.fromNode with
  | some n =>
      match getJS n.outputs l.fromPort with
      | some o => some o.type
      | none => none
  | none => none

/-- Hypotheses under which the round trip is lossless for one link: both
endpoints resolve, both port indices are non-negative, and the stored type
tag agrees with the resolved source node's declared output type. -/
def linkRoundTrippable (D : WorkflowDefinition) (l : WorkflowLink) : Prop :=
  jsGeZero l.fromPort = true ∧ jsGeZero l.toPort = true ∧
  (intMapGet (nodeIdMap D.nodes) l.toNode).isSome = true ∧
  resolvedSourceType D l = some l.ty

def countWidgetInputs (inputs : List NodeInput) : Nat :=
  (inputs.filter (fun input => input.widget.isSome)).length

/-! ### Concrete documents and graphs used by counterexamples and witnesses -/

def exInput (nm ty : String) (lk : Option Int) (w : Option NodeWidget) : NodeInput :=
  { localized_name := nm, name := nm, type := ty, link := lk, widget := w }

def exOutput (nm ty : String) (ls : Option (List Int)) : NodeOutput :=
  { localized_name := nm, name := nm, type := ty, links := ls }

def exNode (i : Int) (ins : List NodeInput) (outs : List NodeOutput) (wv : List JVal) :
    WorkflowNode :=
  { id := i, type := "TestNode", pos := (0, 0), size := (10, 10), flags := [], order := 0,
    mode := 0, inputs := ins, outputs := outs, title := none, properties := [],
    widgets_values := wv }

def exDoc (ns : List WorkflowNode) (ls : List WorkflowLink) (lastLink : Int) :
    WorkflowDefinition :=
  { id := "doc", revision := 1, last_node_id := 9, last_link_id := lastLink, nodes := ns,
    links := ls, groups := [], config := [], extra := [], version := 1 }

/-- Document whose single link carries type tag `LATENT` although the source
node's output at that port is declared `IMAGE`. -/
def docTypeMismatch : WorkflowDefinition :=
  exDoc
    [exNode 1 [] [exOutput "o" "IMAGE" (some [1])] [],
     exNode 2 [exInput "i" "LATENT" (some 1) none] [] []]
    [⟨1, some 1, some 0, some 2, some 0, "LATENT"⟩] 1

/-- Well-formed one-link document (round-trips losslessly). -/
def docGood : WorkflowDefinition :=
  exDoc
    [exNode 1 [] [exOutput "o" "IMAGE" (some [1])] [],
     exNode 2 [exInput "i" "IMAGE" (some 1) none] [] []]
    [⟨1, some 1, some 0, some 2, some 0, "IMAGE"⟩] 1

def docEmpty : WorkflowDefinition := exDoc [] [] 0

def exEdge (i s t sh th : String) : FlowEdge :=
  { id := i, source := s, target := t, sourceHandle := some sh, targetHandle := some th,
    type := "smoothstep", animated := false, label := "" }

/-- Edge whose source handle does not parse to any index (`parseInt` gives `NaN`). -/
def edgeBadHandle : FlowEdge := exEdge "x" "1" "2" "badhandle" "2-input-0"

/-- Edge pair with distinct ids that both match `/^e(\d+)$/` with value 1. -/
def edgeE1 : FlowEdge := exEdge "e1" "1" "2" "1-output-0" "2-input-0"

def edgeE01 : FlowEdge := exEdge "e01" "1" "2" "1-output-0" "2-input-0"

/-- One-node document with one widget-bearing input (`seed`), one plain
input and a single positional widget value. -/
def docWidget : WorkflowDefinition :=
  exDoc
    [exNode 1
      [exInput "seed" "INT" none (some { name := "seed" }),
       exInput "img" "IMAGE" none none]
      [] [JVal.num 42]]
    [] 0

def exFlowNode (i ty : String) (ins : List FlowInput) (outs : List FlowOutput) : FlowNode :=
  { id := i, type := ty, position := (0, 0),
    data := { label := i, type := ty, inputs := ins, outputs := outs,
              widgetValues := WidgetVals.vrec [], properties := [] },
    width := 10, height := 10 }

/-- Source node whose single output carries the wildcard tag, target node
whose single input is `IMAGE`. -/
def nodesWildcard : List FlowNode :=
  [exFlowNode "1" "A" [] [{ name := "o", type := "*" }],
   exFlowNode "2" "B" [{ name := "i", type := "IMAGE", widget := none, link := none }] []]

/-- Nodes whose port types match up to case. -/
def nodesCaseMatch : List FlowNode :=
  [exFlowNode "1" "A" [] [{ name := "o", type := "IMAGE" }],
   exFlowNode "2" "B" [{ name := "i", type := "image", widget := none, link := none }] []]

def connFirstPorts : FlowConnection :=
  { source := some "1", target := some "2",
    sourceHandle := some "1-output-0", targetHandle := some "2-input-0" }

/-- Candidate whose source endpoint names a node absent from the canvas. -/
def connMissingSource : FlowConnection :=
  { source := some "9", target := some "2",
    sourceHandle := some "9-output-0", targetHandle := some "2-input-0" }

/-! ## Association-map lemmas -/

theorem alGet_nil [DecidableEq κ] (k : κ) : alGet ([] : List (κ × α)) k = none := rfl

theorem alGet_cons_eq [DecidableEq κ] {p : κ × α} (rest : List (κ × α)) {k : κ}
    (hp : p.1 = k) : alGet (p :: rest) k = some p.2 := by
  unfold alGet
  rw [List.find?_cons_of_pos _ (by simpa using hp)]
  rfl

theorem alGet_cons_ne [DecidableEq κ] {p : κ × α} (rest : List (κ × α)) {k : κ}
    (hp : p.1 ≠ k) : alGet (p :: rest) k = alGet rest k := by
  unfold alGet
  rw [List.find?_cons_of_neg _ (by simpa using hp)]

theorem alSet_cons_ne [DecidableEq κ] {p : κ × α} (rest : List (κ × α)) {k : κ} (v : α)
    (hp : p.1 ≠ k) : alSet (p :: rest) k v = p :: alSet rest k v := by
  unfold alSet
  by_cases hr : rest.any (fun q => q.1 = k) = true <;>
    simp [List.any_cons, hp, hr]

theorem alSet_cons_eq [DecidableEq κ] {p : κ × α} (rest : List (κ × α)) {k : κ} (v : α)
    (hp : p.1 = k) :
    alSet (p :: rest) k v = (k, v) :: rest.map (fun q => if q.1 = k then (k, v) else q) := by
  unfold alSet
  simp [List.any_cons, hp]

theorem alGet_alSet_self [DecidableEq κ] (m : List (κ × α)) (k : κ) (v : α) :
    alGet (alSet m k v) k = some v := by
  induction m with
  | nil => simp [alSet, alGet]
  | cons p rest ih =>
    by_cases hp : p.1 = k
    · rw [alSet_cons_eq rest v hp, alGet_cons_eq _ rfl]
    · rw [alSet_cons_ne rest v hp, alGet_cons_ne _ hp]
      exact ih

theorem alGet_map_replace_ne [DecidableEq κ] (m : List (κ × α)) {k k' : κ} (v : α)
    (h : k' ≠ k) :
    alGet (m.map (fun q => if q.1 = k then (k, v) else q)) k' = alGet m k' := by
  induction m with
  | nil => rfl
  | cons p rest ih =>
    by_cases hp : p.1 = k
    · rw [List.map_cons, if_pos hp, alGet_cons_ne _ (fun hc => h hc.symm),
        alGet_cons_ne _ (by rw [hp]; exact fun hc => h hc.symm)]
      exact ih
    · by_cases hp' : p.1 = k'
      · rw [List.map_cons, if_neg hp, alGet_cons_eq _ hp', alGet_cons_eq _ hp']
      · rw [List.map_cons, if_neg hp, alGet_cons_ne _ hp', alGet_cons_ne _ hp']
        exact ih

theorem alGet_alSet_ne [DecidableEq κ] (m : List (κ × α)) {k k' : κ} (v : α)
    (h : k' ≠ k) : alGet (alSet m k v) k' = alGet m k' := by
  induction m with
  | nil =>
    rw [show alSet ([] : List (κ × α)) k v = [(k, v)] from rfl,
      alGet_cons_ne _ (fun hc : k = k' => h hc.symm)]
  | cons p rest ih =>
    by_cases hp : p.1 = k
    · rw [alSet_cons_eq rest v hp, alGet_cons_ne _ (fun hc => h hc.symm),
        alGet_map_replace_ne rest v h, alGet_cons_ne _ (by rw [hp]; exact fun hc => h hc.symm)]
    · rw [alSet_cons_ne rest v hp]
      by_cases hp' : p.1 = k'
      · rw [alGet_cons_eq _ hp', alGet_cons_eq _ hp']
      · rw [alGet_cons_ne _ hp', alGet_cons_ne _ hp']
        exact ih

theorem alGet_eq_some_mem [DecidableEq κ] {m : List (κ × α)} {k : κ} {v : α}
    (h : alGet m k = some v) : (k, v) ∈ m := by
  unfold alGet at h
  rcases hf : m.find? (fun p => p.1 = k) with _ | p
  · rw [hf] at h; cases h
  · rw [hf] at h
    have hk : p.1 = k := by simpa using List.find?_some hf
    have hm := List.mem_of_find?_eq_some hf
    have hv : p.2 = v := by simpa using h
    have : (k, v) = p := by
      cases p; cases hk; cases hv; rfl
    rw [this]; exact hm

theorem alGet_isSome_iff [DecidableEq κ] (m : List (κ × α)) (k : κ) :
    (alGet m k).isSome = true ↔ ∃ p ∈ m, p.1 = k := by
  unfold alGet
  rcases hf : m.find? (fun p => p.1 = k) with _ | p
  · rw [hf]
    rw [List.find?_eq_none] at hf
    simp only [Option.map_none', Option.isSome_none]
    constructor
    · intro h; cases h
    · rintro ⟨p, hp, hk⟩
      exact absurd (by simpa using hk) (by simpa using hf p hp)
  · rw [hf]
    simp only [Option.map_some', Option.isSome_some]
    have hk : p.1 = k := by simpa using List.find?_some hf
    exact ⟨fun _ => ⟨p, List.mem_of_find?_eq_some hf, hk⟩, fun _ => trivial⟩

theorem alHas_iff [DecidableEq κ] (m : List (κ × α)) (k : κ) :
    alHas m k = true ↔ ∃ p ∈ m, p.1 = k := by
  unfold alHas
  rw [List.any_eq_true]
  constructor
  · rintro ⟨p, hm, hp⟩; exact ⟨p, hm, by simpa using hp⟩
  · rintro ⟨p, hm, hp⟩; exact ⟨p, hm, by simpa using hp⟩

/-- Lookup in a map built by repeated `set` over a list: the value of the
last element whose key matches. -/
theorem alGet_foldl_set [DecidableEq κ] (key : σ → κ) (val : σ → α) (xs : List σ)
    (m0 : List (κ × α)) (k : κ) :
    alGet (xs.foldl (fun m x => alSet m (key x) (val x)) m0) k =
      ((xs.reverse.find? (fun x => key x = k)).map val).or (alGet m0 k) := by
  induction xs using List.reverseRecOn with
  | nil => simp
  | append_singleton xs x ih =>
    rw [List.foldl_concat, List.reverse_concat]
    by_cases hx : key x = k
    · rw [List.find?_cons_of_pos _ (by simpa using hx)]
      rw [← hx, alGet_alSet_self, Option.map_some']
      rfl
    · rw [List.find?_cons_of_neg _ (by simpa using hx)]
      rw [alGet_alSet_ne _ _ (fun hc => hx hc.symm)]
      exact ih

/-- Generic preservation of an invariant along a left fold. -/
theorem foldl_invariant {P : β → Prop} (f : β → α → β) (l : List α) (b : β) (hb : P b)
    (hstep : ∀ b' a, a ∈ l → P b' → P (f b' a)) : P (l.foldl f b) := by
  induction l generalizing b with
  | nil => exact hb
  | cons a rest ih =>
    exact ih (f b a) (hstep b a (List.mem_cons_self a rest) hb)
      (fun b' a' ha' => hstep b' a' (List.mem_cons_of_mem a ha'))

/-- A link endpoint resolves in the converter's node map exactly when some
node of the array carries that id. -/
theorem intMapGet_nodeIdMap_isSome (ns : List WorkflowNode) (k : JSNum) :
    (intMapGet (nodeIdMap ns) k).isSome = true ↔ resolvesIn ns k := by
  cases k with
  | none =>
    constructor
    · intro h; cases h
    · rintro ⟨n, _, hn⟩; cases hn
  | some i =>
    show (alGet (nodeIdMap ns) i).isSome = true ↔ _
    have hchar := alGet_foldl_set (fun n : WorkflowNode => n.id) (fun n => n) ns [] i
    unfold nodeIdMap
    rw [show (fun (m : IntMap WorkflowNode) (node : WorkflowNode) => intMapSet m node.id node) =
        (fun m node => alSet m node.id node) from rfl]
    rw [hchar, alGet_nil, Option.or_none]
    unfold resolvesIn
    rcases hf : ns.reverse.find? (fun n => n.id = i) with _ | n
    · rw [hf]
      rw [List.find?_eq_none] at hf
      simp only [Option.map_none', Option.isSome_none]
      constructor
      · intro h; cases h
      · rintro ⟨n, hn, hid⟩
        have hni : n.id = i := by injection hid
        exact absurd (by simpa using hni) (by simpa using hf n (List.mem_reverse.mpr hn))
    · rw [hf]
      have hid : n.id = i := by simpa using List.find?_some hf
      have hn : n ∈ ns := List.mem_reverse.mp (List.mem_of_find?_eq_some hf)
      simp only [Option.map_some', Option.isSome_some]
      constructor
      · intro _; exact ⟨n, hn, by rw [hid]⟩
      · intro _; trivial

/-! ## Claim theorems -/

/-- C7: applying a `status` event carrying `exec_info.queue_remaining` and
then the local `markPromptQueued` transition yields phase `queued` with the
prompt id while `queueRemaining` keeps the event's value; in general
`markPromptQueued` preserves `queueRemaining` and every per-node map, and
the concrete scenario (`queue_remaining = 3`, `"prompt-1"`) lands in the
state the claim describes. -/
theorem c7_markPromptQueued_preserves (s : ExecutionState) (pid : String) (qr : Option Int) :
    (markPromptQueued (applyStatusEvent s qr) pid).phase = ExecPhase.queued ∧
    (markPromptQueued (applyStatusEvent s qr) pid).promptId = some pid ∧
    (markPromptQueued (applyStatusEvent s qr) pid).queueRemaining = qr ∧
    (markPromptQueued s pid).queueRemaining = s.queueRemaining ∧
    (markPromptQueued s pid).nodeStatuses = s.nodeStatuses ∧
    (markPromptQueued s pid).nodeProgress = s.nodeProgress ∧
    (markPromptQueued s pid).nodeOutputs = s.nodeOutputs ∧
    (markPromptQueued s pid).nodeErrors = s.nodeErrors ∧
    (markPromptQueued (applyStatusEvent initialExecutionState (some 3)) "prompt-1").phase =
      ExecPhase.queued ∧
    (markPromptQueued (applyStatusEvent initialExecutionState (some 3)) "prompt-1").promptId =
      some "prompt-1" ∧
    (markPromptQueued (applyStatusEvent initialExecutionState (some 3)) "prompt-1").queueRemaining =
      some 3 :=
  ⟨rfl, rfl, rfl, rfl, rfl, rfl, rfl, rfl, rfl, rfl, rfl⟩

/-- C10: every top-level field of the serializer's result other than
`nodes`, `links` and `last_link_id` — `id`, `revision`, `version`,
`last_node_id`, `groups`, `config`, `extra` — equals the corresponding
field of the original document. -/
theorem c10_serializer_untouched_fields (b : WorkflowDefinition) (ns : List FlowNode)
    (es : List FlowEdge) :
    (buildWorkflowFromFlow b ns es).id = b.id ∧
    (buildWorkflowFromFlow b ns es).revision = b.revision ∧
    (buildWorkflowFromFlow b ns es).version = b.version ∧
    (buildWorkflowFromFlow b ns es).last_node_id = b.last_node_id ∧
    (buildWorkflowFromFlow b ns es).groups = b.groups ∧
    (buildWorkflowFromFlow b ns es).config = b.config ∧
    (buildWorkflowFromFlow b ns es).extra = b.extra :=
  ⟨rfl, rfl, rfl, rfl, rfl, rfl, rfl⟩

/-- C6: the converter turns exactly the links whose two endpoints resolve to
known nodes into edges — a link referencing a missing node id produces no
edge while every other link still produces its edge, and the conversion is
total (no exception). -/
theorem c6_dangling_link_dropped (D : WorkflowDefinition) :
    (convertWorkflowToFlow D).2 =
      D.links.filterMap (fun link =>
        if resolvesIn D.nodes link.fromNode ∧ resolvesIn D.nodes link.toNode then
          some (edgeOfLink link)
        else none) := by
  show convertLinksToEdges D.nodes D = _
  unfold convertLinksToEdges
  apply List.filterMap_congr
  intro l _
  rcases hf : intMapGet (nodeIdMap D.nodes) l.fromNode with _ | nf
  · have hnr : ¬ resolvesIn D.nodes l.fromNode := by
      intro hr
      have := (intMapGet_nodeIdMap_isSome D.nodes l.fromNode).mpr hr
      rw [hf] at this
      cases this
    rw [if_neg (fun hc => hnr hc.1)]
  · rcases ht : intMapGet (nodeIdMap D.nodes) l.toNode with _ | nt
    · have hnr : ¬ resolvesIn D.nodes l.toNode := by
        intro hr
        have := (intMapGet_nodeIdMap_isSome D.nodes l.toNode).mpr hr
        rw [ht] at this
        cases this
      rw [if_neg (fun hc => hnr hc.2)]
    · have hrf : resolvesIn D.nodes l.fromNode := by
        apply (intMapGet_nodeIdMap_isSome D.nodes l.fromNode).mp
        rw [hf]; rfl
      have hrt : resolvesIn D.nodes l.toNode := by
        apply (intMapGet_nodeIdMap_isSome D.nodes l.toNode).mp
        rw [ht]; rfl
      rw [if_pos ⟨hrf, hrt⟩]

/-- C4 (code bug): an edge whose source handle does not parse to any index
is *not* dropped — `Number.parseInt` yields `NaN`, the `< 0` guard does not
catch it, and a link record with a `NaN` source-port index is pushed. -/
theorem c4_unparseable_handle_not_dropped :
    (buildWorkflowFromFlow docEmpty [] [edgeBadHandle]).links =
      [{ lid := 1, fromNode := some 1, fromPort := none, toNode := some 2,
         toPort := some 0, ty := "*" }] := by
  decide

/-- A successful JS array access means the index was a genuine non-negative
number, so the `< 0` guard cannot have fired. -/
theorem getJS_some_not_neg {l : List α} {i : JSNum} {a : α} (h : getJS l i = some a) :
    jsLtZero i = false := by
  cases i with
  | none => cases h
  | some n =>
    have h' : (if n < 0 then (none : Option α) else l.get? n.toNat) = some a := h
    by_cases hn : n < 0
    · rw [if_pos hn] at h'; cases h'
    · simpa [jsLtZero] using hn

/-- C5 (counterexample): the claim says any pairing in which either port
carries the wildcard tag is accepted; the code compares lowercased tags for
equality only, so a `*` output against an `IMAGE` input is rejected. -/
theorem c5_wildcard_rejected_counterexample :
    isValidConnection nodesWildcard connFirstPorts = false := by
  decide

/-- C5 (amended): `isValidConnection` is a pure predicate that returns
`true` exactly when the candidate fully resolves and the types match: both
endpoint ids are non-falsy and resolve on the canvas, the source output and
target input port lookups succeed, and the source output's type equals the
target input's type after lowercasing — with no wildcard exception.  In
particular every candidate whose endpoints or port indices do not resolve
is rejected (no witnesses exist for it).  The rejection of
same-directional-kind pairings is enforced by `isHandleValid`'s kind check
(and by the flow library), not by `isValidConnection`. -/
theorem c5_validator_amended :
    (∀ (nodes : List FlowNode) (conn : FlowConnection),
        isValidConnection nodes conn = true ↔
          ∃ (sn tn : FlowNode) (so : FlowOutput) (ti : FlowInput),
            jsFalsyStr conn.source = false ∧ jsFalsyStr conn.target = false ∧
            nodes.find? (fun n => n.id = conn.source.getD "") = some sn ∧
            nodes.find? (fun n => n.id = conn.target.getD "") = some tn ∧
            getJS sn.data.outputs (handleIdxOf (sourceHandleIdOf conn)) = some so ∧
            getJS tn.data.inputs (handleIdxOf (targetHandleIdOf conn)) = some ti ∧
            toLowerJS so.type = toLowerJS ti.type) ∧
    (∀ (connectingType : Option String) (fromSource : Bool) (handleType : String),
        jsFalsyStr connectingType = false →
        isHandleValid true connectingType fromSource handleType fromSource = false) := by
  constructor
  · intro nodes conn
    constructor
    · intro h
      have h1 : (if jsFalsyStr conn.source = true ∨ jsFalsyStr conn.target = true then false
          else match nodes.find? (fun n => n.id = conn.source.getD ""),
              nodes.find? (fun n => n.id = conn.target.getD "") with
            | some sourceNode, some targetNode =>
                if jsLtZero (handleIdxOf (sourceHandleIdOf conn)) = true
                    ∨ jsLtZero (handleIdxOf (targetHandleIdOf conn)) = true then false
                else
                  match getJS sourceNode.data.outputs (handleIdxOf (sourceHandleIdOf conn)),
                      getJS targetNode.data.inputs (handleIdxOf (targetHandleIdOf conn)) with
                  | some sourceOutput, some targetInput =>
                      decide (toLowerJS sourceOutput.type = toLowerJS targetInput.type)
                  | _, _ => false
            | _, _ => false) = true := h
      by_cases hc : jsFalsyStr conn.source = true ∨ jsFalsyStr conn.target = true
      · rw [if_pos hc] at h1
        exact Bool.noConfusion h1
      · rw [if_neg hc] at h1
        have hs : jsFalsyStr conn.source = false := by
          cases hv : jsFalsyStr conn.source
          · rfl
          · exact absurd (Or.inl hv) hc
        have ht : jsFalsyStr conn.target = false := by
          cases hv : jsFalsyStr conn.target
          · rfl
          · exact absurd (Or.inr hv) hc
        rcases hsn : nodes.find? (fun n => n.id = conn.source.getD "") with _ | sn
        · rw [hsn] at h1
          exact Bool.noConfusion h1
        · rcases htn : nodes.find? (fun n => n.id = conn.target.getD "") with _ | tn
          · rw [hsn, htn] at h1
            exact Bool.noConfusion h1
          · rw [hsn, htn] at h1
            have h2 : (if jsLtZero (handleIdxOf (sourceHandleIdOf conn)) = true
                  ∨ jsLtZero (handleIdxOf (targetHandleIdOf conn)) = true then false
                else
                  match getJS sn.data.outputs (handleIdxOf (sourceHandleIdOf conn)),
                      getJS tn.data.inputs (handleIdxOf (targetHandleIdOf conn)) with
                  | some sourceOutput, some targetInput =>
                      decide (toLowerJS sourceOutput.type = toLowerJS targetInput.type)
                  | _, _ => false) = true := h1
            by_cases hz : jsLtZero (handleIdxOf (sourceHandleIdOf conn)) = true
                ∨ jsLtZero (handleIdxOf (targetHandleIdOf conn)) = true
            · rw [if_pos hz] at h2
              exact Bool.noConfusion h2
            · rw [if_neg hz] at h2
              rcases hso : getJS sn.data.outputs (handleIdxOf (sourceHandleIdOf conn))
                with _ | so
              · rw [hso] at h2
                exact Bool.noConfusion h2
              · rcases hti : getJS tn.data.inputs (handleIdxOf (targetHandleIdOf conn))
                  with _ | ti
                · rw [hso, hti] at h2
                  exact Bool.noConfusion h2
                · rw [hso, hti] at h2
                  exact ⟨sn, tn, so, ti, hs, ht, hsn, htn, hso, hti, of_decide_eq_true h2⟩
    · rintro ⟨sn, tn, so, ti, hs, ht, hsn, htn, hso, hti, hty⟩
      show (if jsFalsyStr conn.source = true ∨ jsFalsyStr conn.target = true then false
          else match nodes.find? (fun n => n.id = conn.source.getD ""),
              nodes.find? (fun n => n.id = conn.target.getD "") with
            | some sourceNode, some targetNode =>
                if jsLtZero (handleIdxOf (sourceHandleIdOf conn)) = true
                    ∨ jsLtZero (handleIdxOf (targetHandleIdOf conn)) = true then false
                else
                  match getJS sourceNode.data.outputs (handleIdxOf (sourceHandleIdOf conn)),
                      getJS targetNode.data.inputs (handleIdxOf (targetHandleIdOf conn)) with
                  | some sourceOutput, some targetInput =>
                      decide (toLowerJS sourceOutput.type = toLowerJS targetInput.type)
                  | _, _ => false
            | _, _ => false) = true
      rw [if_neg (by simp [hs, ht]), hsn, htn]
      show (if jsLtZero (handleIdxOf (sourceHandleIdOf conn)) = true
            ∨ jsLtZero (handleIdxOf (targetHandleIdOf conn)) = true then false
          else
            match getJS sn.data.outputs (handleIdxOf (sourceHandleIdOf conn)),
                getJS tn.data.inputs (handleIdxOf (targetHandleIdOf conn)) with
            | some sourceOutput, some targetInput =>
                decide (toLowerJS sourceOutput.type = toLowerJS targetInput.type)
            | _, _ => false) = true
      rw [if_neg (by simp [getJS_some_not_neg hso, getJS_some_not_neg hti]), hso, hti]
      show decide (toLowerJS so.type = toLowerJS ti.type) = true
      exact decide_eq_true hty
  · intro connectingType fromSource handleType hf
    unfold isHandleValid
    rw [if_neg (by simp [hf]), if_pos rfl]

/-- C5 (witness): the characterization applied concretely — acceptance of a
case-insensitively matching pair, rejection of a candidate whose source
endpoint does not resolve, and the kind check on a same-kind pairing. -/
theorem c5_validator_amended_witness :
    isValidConnection nodesCaseMatch connFirstPorts = true ∧
    isValidConnection nodesCaseMatch connMissingSource = false ∧
    isHandleValid true (some "image") true "IMAGE" true = false := by
  refine ⟨?_, ?_, c5_validator_amended.2 (some "image") true "IMAGE" (by decide)⟩
  · exact (c5_validator_amended.1 nodesCaseMatch connFirstPorts).mpr
      ⟨exFlowNode "1" "A" [] [{ name := "o", type := "IMAGE" }],
       exFlowNode "2" "B" [{ name := "i", type := "image", widget := none, link := none }] [],
       { name := "o", type := "IMAGE" },
       { name := "i", type := "image", widget := none, link := none },
       by decide, by decide, by decide, by decide, by decide, by decide, by decide⟩
  · cases hval : isValidConnection nodesCaseMatch connMissingSource with
    | false => rfl
    | true =>
      rcases (c5_validator_amended.1 nodesCaseMatch connMissingSource).mp hval
        with ⟨sn, tn, so, ti, hs, ht, hsn, htn, hso, hti, hty⟩
      rw [show nodesCaseMatch.find?
          (fun n => n.id = connMissingSource.source.getD "") = none from by decide] at hsn
      exact Option.noConfusion hsn

/-! ## Structural lemmas about the serializer pipeline -/

theorem length_listModify (f : α → α) (i : Nat) (l : List α) :
    (listModify f i l).length = l.length := by
  induction l generalizing i with
  | nil => cases i <;> rfl
  | cons x xs ih =>
    cases i with
    | zero => rfl
    | succ n => simpa [listModify] using ih n

theorem map_listModify (g : α → β) (f : α → α) (hfg : ∀ x, g (f x) = g x) (i : Nat)
    (l : List α) : (listModify f i l).map g = l.map g := by
  induction l generalizing i with
  | nil => cases i <;> rfl
  | cons x xs ih =>
    cases i with
    | zero => simp [listModify, hfg]
    | succ n => simp [listModify, ih n]

theorem length_setAtJS (l : List α) (i : JSNum) (f : α → α) :
    (setAtJS l i f).length = l.length := by
  cases i with
  | none => rfl
  | some n =>
    have hdef : setAtJS l (some n) f = if n < 0 then l else listModify f n.toNat l := rfl
    rw [hdef]
    by_cases hn : n < 0
    · rw [if_pos hn]
    · rw [if_neg hn]; exact length_listModify f n.toNat l

theorem map_setAtJS (g : α → β) (l : List α) (i : JSNum) (f : α → α)
    (hfg : ∀ x, g (f x) = g x) : (setAtJS l i f).map g = l.map g := by
  cases i with
  | none => rfl
  | some n =>
    have hdef : setAtJS l (some n) f = if n < 0 then l else listModify f n.toNat l := rfl
    rw [hdef]
    by_cases hn : n < 0
    · rw [if_pos hn]
    · rw [if_neg hn]; exact map_listModify g f hfg n.toNat l

theorem build_links_eq (b : WorkflowDefinition) (ns : List FlowNode) (es : List FlowEdge) :
    (buildWorkflowFromFlow b ns es).links = newLinksOf b ns es := rfl

theorem build_lastLinkId_eq (b : WorkflowDefinition) (ns : List FlowNode)
    (es : List FlowEdge) :
    (buildWorkflowFromFlow b ns es).last_link_id = (allocateLinkIds b.last_link_id es).2 - 1 :=
  rfl

theorem build_nodes_eq (b : WorkflowDefinition) (ns : List FlowNode) (es : List FlowEdge) :
    (buildWorkflowFromFlow b ns es).nodes =
      (newLinksOf b ns es).foldl applyLink (updatedNodesOf b ns) := rfl

theorem applyLink_eq_map (nodes : List WorkflowNode) (link : WorkflowLink) :
    applyLink nodes link = nodes.map (applyLinkNode link) := by
  unfold applyLink
  rw [List.map_map]
  rfl

theorem foldl_applyLink_map (ls : List WorkflowLink) (ns0 : List WorkflowNode) :
    ls.foldl applyLink ns0 =
      ns0.map (fun n => ls.foldl (fun x l => applyLinkNode l x) n) := by
  induction ls generalizing ns0 with
  | nil => simp
  | cons l rest ih =>
    rw [List.foldl_cons, ih (applyLink ns0 l), applyLink_eq_map, List.map_map]
    rfl

theorem nodeSkel_applyLinkNodeTarget (link : WorkflowLink) (n : WorkflowNode) :
    nodeSkel (applyLinkNodeTarget link n) = nodeSkel n := by
  unfold applyLinkNodeTarget
  by_cases hid : some n.id = link.toNode
  · rw [if_pos hid]
    rcases hg : getJS n.inputs link.toPort with _ | inp
    · rfl
    · unfold nodeSkel
      simp [map_setAtJS, length_setAtJS]
  · rw [if_neg hid]

theorem nodeSkel_applyLinkNodeSource (link : WorkflowLink) (n : WorkflowNode) :
    nodeSkel (applyLinkNodeSource link n) = nodeSkel n := by
  unfold applyLinkNodeSource
  by_cases hid : some n.id = link.fromNode
  · rw [if_pos hid]
    rcases hg : getJS n.outputs link.fromPort with _ | outp
    · rfl
    · unfold nodeSkel
      simp [length_setAtJS]
  · rw [if_neg hid]

theorem nodeSkel_applyLinkNode (link : WorkflowLink) (n : WorkflowNode) :
    nodeSkel (applyLinkNode link n) = nodeSkel n := by
  unfold applyLinkNode
  rw [nodeSkel_applyLinkNodeSource, nodeSkel_applyLinkNodeTarget]

theorem nodeSkel_foldl_applyLinkNode (ls : List WorkflowLink) (n : WorkflowNode) :
    nodeSkel (ls.foldl (fun x l => applyLinkNode l x) n) = nodeSkel n := by
  induction ls generalizing n with
  | nil => rfl
  | cons l rest ih => rw [List.foldl_cons, ih, nodeSkel_applyLinkNode]

theorem countWidgetInputs_cons (i : NodeInput) (rest : List NodeInput) :
    countWidgetInputs (i :: rest) =
      (if i.widget.isSome then 1 else 0) + countWidgetInputs rest := by
  unfold countWidgetInputs
  by_cases hw : i.widget.isSome
  · rw [List.filter_cons_of_pos (by simpa using hw), if_pos hw, List.length_cons]
    omega
  · rw [List.filter_cons_of_neg (by simpa using hw), if_neg hw]
    omega

theorem countWidgetInputs_eq_of_widget_map {a b : List NodeInput}
    (h : a.map (fun i => i.widget) = b.map (fun i => i.widget)) :
    countWidgetInputs a = countWidgetInputs b := by
  induction a generalizing b with
  | nil =>
    cases b with
    | nil => rfl
    | cons y ys => cases h
  | cons x xs ih =>
    cases b with
    | nil => cases h
    | cons y ys =>
      rw [List.map_cons, List.map_cons] at h
      have h1 : x.widget = y.widget := by injection h
      have h2 : xs.map (fun i => i.widget) = ys.map (fun i => i.widget) := by injection h
      rw [countWidgetInputs_cons, countWidgetInputs_cons, h1, ih h2]

theorem rebuildWidgetValues_go_length (wv : WidgetVals) (inputs : List NodeInput)
    (acc : List JVal) :
    (inputs.foldl
      (fun orderedValues input =>
        if input.widget.isSome then
          orderedValues ++
            [match wv with
             | WidgetVals.vrec m => (mapGet m input.name).getD JVal.null
             | WidgetVals.varr l => (l.get? orderedValues.length).getD JVal.null]
        else orderedValues)
      acc).length = acc.length + countWidgetInputs inputs := by
  induction inputs generalizing acc with
  | nil => simp [countWidgetInputs]
  | cons i rest ih =>
    rw [List.foldl_cons, countWidgetInputs_cons]
    by_cases hw : i.widget.isSome
    · rw [if_pos hw, ih, if_pos hw, List.length_append]
      simp
      omega
    · rw [if_neg hw, ih, if_neg hw]
      omega

theorem rebuildWidgetValues_length (wv : WidgetVals) (inputs : List NodeInput) :
    (rebuildWidgetValues wv inputs).length = countWidgetInputs inputs := by
  unfold rebuildWidgetValues
  rw [rebuildWidgetValues_go_length]
  simp

theorem clearedInputs_widget_map (inputs : List NodeInput) :
    (inputs.map (fun input => { input with link := none })).map (fun i => i.widget) =
      inputs.map (fun i => i.widget) := by
  rw [List.map_map]
  rfl

theorem mapGet_workflowNodeMapOf (ns : List WorkflowNode) (k : String) :
    mapGet (workflowNodeMapOf ns) k = ns.reverse.find? (fun n => intToString n.id = k) := by
  show alGet _ _ = _
  unfold workflowNodeMapOf
  rw [show (fun (m : StrMap WorkflowNode) (node : WorkflowNode) =>
      mapSet m (intToString node.id) node) =
      (fun m node => alSet m (intToString node.id) node) from rfl]
  rw [alGet_foldl_set (fun n : WorkflowNode => intToString n.id) (fun n => n) ns [] k,
    alGet_nil, Option.or_none]
  rcases hf : ns.reverse.find? (fun n => intToString n.id = k) with _ | n <;> simp [hf]

theorem mapGet_flowNodeMapOf (ns : List FlowNode) (k : String) :
    mapGet (flowNodeMapOf ns) k = ns.reverse.find? (fun fn => fn.id = k) := by
  show alGet _ _ = _
  unfold flowNodeMapOf
  rw [show (fun (m : StrMap FlowNode) (node : FlowNode) => mapSet m node.id node) =
      (fun m node => alSet m node.id node) from rfl]
  rw [alGet_foldl_set (fun fn : FlowNode => fn.id) (fun fn => fn) ns [] k,
    alGet_nil, Option.or_none]
  rcases hf : ns.reverse.find? (fun fn => fn.id = k) with _ | n <;> simp [hf]

/-- Every node surviving node reconciliation has a flow node under its own
id string, so the per-node update loop never skips it. -/
theorem filtered_has_flowNode (b : WorkflowDefinition) (ns : List FlowNode) :
    ∀ wn ∈ filteredNodesOf b ns,
      ∃ fn, mapGet (flowNodeMapOf ns) (intToString wn.id) = some fn := by
  intro wn hwn
  unfold filteredNodesOf at hwn
  rcases List.mem_filterMap.mp hwn with ⟨fn, hfn, hget⟩
  rw [mapGet_workflowNodeMapOf] at hget
  have hkey : intToString wn.id = fn.id := by simpa using List.find?_some hget
  rw [hkey, mapGet_flowNodeMapOf]
  have : (ns.reverse.find? (fun x => x.id = fn.id)).isSome = true := by
    rw [List.find?_isSome]
    exact ⟨fn, List.mem_reverse.mpr hfn, by simp⟩
  exact Option.isSome_iff_exists.mp this

/-- C8: in every document the serializer returns, each node's
`widgets_values` has exactly one entry per widget-bearing input; and the
widget rebuild reads the name-keyed record in input order, serializing a
missing entry as an explicit `null`. -/
theorem c8_widget_arity (b : WorkflowDefinition) (ns : List FlowNode) (es : List FlowEdge) :
    (∀ n ∈ (buildWorkflowFromFlow b ns es).nodes,
        n.widgets_values.length = countWidgetInputs n.inputs) ∧
    (∀ (m : StrMap JVal) (inputs : List NodeInput),
        rebuildWidgetValues (WidgetVals.vrec m) inputs =
          (inputs.filter (fun i => i.widget.isSome)).map
            (fun i => (mapGet m i.name).getD JVal.null)) := by
  constructor
  · intro n hn
    rw [build_nodes_eq, foldl_applyLink_map] at hn
    rcases List.mem_map.mp hn with ⟨u, hu, hun⟩
    have hskel := nodeSkel_foldl_applyLinkNode (newLinksOf b ns es) u
    rw [hun] at hskel
    have hwv : n.widgets_values = u.widgets_values := by
      have := congrArg (fun t : Int × List JVal × List (Option NodeWidget) × Nat × Nat => t.2.1) hskel
      simpa [nodeSkel] using this
    have hwm : n.inputs.map (fun i => i.widget) = u.inputs.map (fun i => i.widget) := by
      have := congrArg (fun t : Int × List JVal × List (Option NodeWidget) × Nat × Nat => t.2.2.1) hskel
      simpa [nodeSkel] using this
    rw [hwv, countWidgetInputs_eq_of_widget_map hwm]
    unfold updatedNodesOf at hu
    rcases List.mem_map.mp hu with ⟨wn, hwn, hwu⟩
    rcases filtered_has_flowNode b ns wn hwn with ⟨fn, hget⟩
    rw [hget] at hwu
    rw [← hwu]
    show (rebuildWidgetValues fn.data.widgetValues wn.inputs).length =
      countWidgetInputs ((nodeUpdate wn fn).inputs)
    rw [rebuildWidgetValues_length]
    exact (countWidgetInputs_eq_of_widget_map (clearedInputs_widget_map wn.inputs)).symm
  · intro m inputs
    unfold rebuildWidgetValues
    have hgen : ∀ (inps : List NodeInput) (acc : List JVal),
        (inps.foldl
          (fun orderedValues input =>
            if input.widget.isSome then
              orderedValues ++
                [match WidgetVals.vrec m with
                 | WidgetVals.vrec mm => (mapGet mm input.name).getD JVal.null
                 | WidgetVals.varr l => (l.get? orderedValues.length).getD JVal.null]
            else orderedValues)
          acc) =
          acc ++ (inps.filter (fun i => i.widget.isSome)).map
            (fun i => (mapGet m i.name).getD JVal.null) := by
      intro inps
      induction inps with
      | nil => intro acc; simp
      | cons i rest ih =>
        intro acc
        rw [List.foldl_cons]
        by_cases hw : i.widget.isSome
        · rw [if_pos hw, ih, List.filter_cons_of_pos (by simpa using hw), List.map_cons]
          simp
        · rw [if_neg hw, ih, List.filter_cons_of_neg (by simpa using hw)]
    exact hgen inputs []

/-- C8 (witness): a concrete round trip of a document with one
widget-bearing input keeps widget arity. -/
theorem c8_widget_arity_witness :
    ∃ n ∈ (buildWorkflowFromFlow docWidget (convertWorkflowToFlow docWidget).1
        (convertWorkflowToFlow docWidget).2).nodes,
      n.widgets_values.length = countWidgetInputs n.inputs := by
  refine ⟨exNode 1
    [exInput "seed" "INT" none (some { name := "seed" }),
     exInput "img" "IMAGE" none none] [] [JVal.num 42], by decide, ?_⟩
  exact (c8_widget_arity docWidget (convertWorkflowToFlow docWidget).1
    (convertWorkflowToFlow docWidget).2).1 _ (by decide)

/-! ## Lemmas about the denormalization rebuild (invariant I1) -/

theorem get?_listModify_self (f : α → α) (j : Nat) (l : List α) :
    (listModify f j l).get? j = (l.get? j).map f := by
  induction l generalizing j with
  | nil => cases j <;> rfl
  | cons x xs ih =>
    cases j with
    | zero => rfl
    | succ n => simpa [listModify] using ih n

theorem get?_listModify_ne (f : α → α) {j k : Nat} (l : List α) (h : j ≠ k) :
    (listModify f j l).get? k = l.get? k := by
  induction l generalizing j k with
  | nil => cases j <;> rfl
  | cons x xs ih =>
    cases j with
    | zero =>
      cases k with
      | zero => exact absurd rfl h
      | succ m => rfl
    | succ n =>
      cases k with
      | zero => rfl
      | succ m => simpa [listModify] using ih (fun hc => h (by rw [hc]))

theorem listModify_of_le (f : α → α) {j : Nat} {l : List α} (h : l.length ≤ j) :
    listModify f j l = l := by
  induction l generalizing j with
  | nil => cases j <;> rfl
  | cons x xs ih =>
    cases j with
    | zero => simp at h
    | succ n =>
      show x :: listModify f n xs = x :: xs
      rw [ih (by simpa using h)]

theorem setAtJS_of_getJS_none {l : List α} {p : JSNum} (f : α → α)
    (h : getJS l p = none) : setAtJS l p f = l := by
  cases p with
  | none => rfl
  | some n =>
    show (if n < 0 then l else listModify f n.toNat l) = l
    by_cases hn : n < 0
    · rw [if_pos hn]
    · rw [if_neg hn]
      have h' : (if n < 0 then (none : Option α) else l.get? n.toNat) = none := h
      rw [if_neg hn] at h'
      rw [List.get?_eq_none] at h'
      exact listModify_of_le f h'

/-- The target write collapses to an unconditional in-range update: when the
port does not exist the update is a no-op anyway. -/
theorem applyLinkNodeTarget_eq (link : WorkflowLink) (n : WorkflowNode) :
    applyLinkNodeTarget link n =
      if some n.id = link.toNode then
        { n with inputs := setAtJS n.inputs link.toPort (fun input => { input with link := some link.lid }) }
      else n := by
  unfold applyLinkNodeTarget
  by_cases hid : some n.id = link.toNode
  · rw [if_pos hid, if_pos hid]
    rcases hg : getJS n.inputs link.toPort with _ | inp
    · rw [setAtJS_of_getJS_none _ hg]
    · rfl
  · rw [if_neg hid, if_neg hid]

theorem applyLinkNodeSource_eq (link : WorkflowLink) (n : WorkflowNode) :
    applyLinkNodeSource link n =
      if some n.id = link.fromNode then
        { n with outputs := setAtJS n.outputs link.fromPort (fun output => { output with links := some ((output.links.getD []) ++ [link.lid]) }) }
      else n := by
  unfold applyLinkNodeSource
  by_cases hid : some n.id = link.fromNode
  · rw [if_pos hid, if_pos hid]
    rcases hg : getJS n.outputs link.fromPort with _ | outp
    · rw [setAtJS_of_getJS_none _ hg]
    · rfl
  · rw [if_neg hid, if_neg hid]

theorem getJS_setAtJS_self {l : List α} {n : Int} (f : α → α) (hn : 0 ≤ n) :
    getJS (setAtJS l (some n) f) (some n) = (getJS l (some n)).map f := by
  have hlt : ¬ n < 0 := by omega
  show getJS (if n < 0 then l else listModify f n.toNat l) (some n) = _
  rw [if_neg hlt]
  show (if n < 0 then none else (listModify f n.toNat l).get? n.toNat) =
    ((if n < 0 then none else l.get? n.toNat)).map f
  rw [if_neg hlt, if_neg hlt, get?_listModify_self]

theorem getJS_setAtJS_ne {p q : JSNum} (l : List α) (f : α → α) (h : p ≠ q) :
    getJS (setAtJS l q f) p = getJS l p := by
  cases q with
  | none => rfl
  | some qn =>
    show getJS (if qn < 0 then l else listModify f qn.toNat l) p = getJS l p
    by_cases hq : qn < 0
    · rw [if_pos hq]
    · rw [if_neg hq]
      cases p with
      | none => rfl
      | some pn =>
        show (if pn < 0 then none else (listModify f qn.toNat l).get? pn.toNat) =
          (if pn < 0 then none else l.get? pn.toNat)
        by_cases hp : pn < 0
        · rw [if_pos hp, if_pos hp]
        · rw [if_neg hp, if_neg hp, get?_listModify_ne]
          intro hc
          apply h
          have : pn = qn := by omega
          rw [this]

theorem getJS_isSome_congr {l₁ l₂ : List α} (p : JSNum) (h : l₁.length = l₂.length) :
    (getJS l₁ p).isSome = (getJS l₂ p).isSome := by
  cases p with
  | none => rfl
  | some n =>
    show (if n < 0 then (none : Option α) else l₁.get? n.toNat).isSome =
      (if n < 0 then (none : Option α) else l₂.get? n.toNat).isSome
    by_cases hn : n < 0
    · rw [if_pos hn, if_pos hn]
    · rw [if_neg hn, if_neg hn]
      rcases h1 : l₁.get? n.toNat with _ | a
      · rcases h2 : l₂.get? n.toNat with _ | b
        · rfl
        · exfalso
          rw [List.get?_eq_none] at h1
          obtain ⟨hlt, _⟩ := List.get?_eq_some.mp h2
          omega
      · rcases h2 : l₂.get? n.toNat with _ | b
        · exfalso
          rw [List.get?_eq_none] at h2
          obtain ⟨hlt, _⟩ := List.get?_eq_some.mp h1
          omega
        · rfl

/-- A successful JS array access pins the index to a non-negative number. -/
theorem getJS_some_port {l : List α} {p : JSNum} {a : α} (h : getJS l p = some a) :
    ∃ pn : Int, p = some pn ∧ 0 ≤ pn := by
  cases p with
  | none =>
    have : (none : Option α) = some a := h
    cases this
  | some n =>
    refine ⟨n, rfl, ?_⟩
    have h2 := getJS_some_not_neg h
    have h3 : ¬ n < 0 := by simpa [jsLtZero] using h2
    omega

theorem inputs_applyLinkNodeSource (link : WorkflowLink) (n : WorkflowNode) :
    (applyLinkNodeSource link n).inputs = n.inputs := by
  rw [applyLinkNodeSource_eq]
  by_cases hid : some n.id = link.fromNode
  · rw [if_pos hid]
  · rw [if_neg hid]

theorem outputs_applyLinkNodeTarget (link : WorkflowLink) (n : WorkflowNode) :
    (applyLinkNodeTarget link n).outputs = n.outputs := by
  rw [applyLinkNodeTarget_eq]
  by_cases hid : some n.id = link.toNode
  · rw [if_pos hid]
  · rw [if_neg hid]

theorem id_applyLinkNodeTarget (link : WorkflowLink) (n : WorkflowNode) :
    (applyLinkNodeTarget link n).id = n.id := by
  rw [applyLinkNodeTarget_eq]
  by_cases hid : some n.id = link.toNode
  · rw [if_pos hid]
  · rw [if_neg hid]

theorem inputs_applyLinkNode (link : WorkflowLink) (n : WorkflowNode) :
    (applyLinkNode link n).inputs = (applyLinkNodeTarget link n).inputs :=
  inputs_applyLinkNodeSource link (applyLinkNodeTarget link n)

theorem id_applyLinkNode (link : WorkflowLink) (n : WorkflowNode) :
    (applyLinkNode link n).id = n.id := by
  have := nodeSkel_applyLinkNode link n
  exact congrArg (fun t : Int × List JVal × List (Option NodeWidget) × Nat × Nat => t.1) this

theorem inputsLength_applyLinkNode (link : WorkflowLink) (n : WorkflowNode) :
    (applyLinkNode link n).inputs.length = n.inputs.length := by
  have := nodeSkel_applyLinkNode link n
  exact congrArg (fun t : Int × List JVal × List (Option NodeWidget) × Nat × Nat => t.2.2.2.1) this

theorem outputsLength_applyLinkNode (link : WorkflowLink) (n : WorkflowNode) :
    (applyLinkNode link n).outputs.length = n.outputs.length := by
  have := nodeSkel_applyLinkNode link n
  exact congrArg (fun t : Int × List JVal × List (Option NodeWidget) × Nat × Nat => t.2.2.2.2) this

/-- The target write of link `l` on its own target node sets the input's
back-reference to the link id. -/
theorem applyLinkNode_establish_target {l : WorkflowLink} {n : WorkflowNode}
    (hid : some n.id = l.toNode) (hsome : (getJS n.inputs l.toPort).isSome = true) :
    (getJS (applyLinkNode l n).inputs l.toPort).map (fun input => input.link) =
      some (some l.lid) := by
  rcases Option.isSome_iff_exists.mp hsome with ⟨inp, hinp⟩
  rcases getJS_some_port hinp with ⟨pn, hpn, hge⟩
  rw [inputs_applyLinkNode, applyLinkNodeTarget_eq, if_pos hid]
  show (getJS (setAtJS n.inputs l.toPort _) l.toPort).map _ = _
  rw [hpn, getJS_setAtJS_self _ hge]
  rw [hpn] at hinp
  rw [hinp]
  rfl

/-- A link that does not target the same `(node, port)` leaves the input's
back-reference alone. -/
theorem applyLinkNode_preserve_target {l' : WorkflowLink} {n : WorkflowNode} {p : JSNum}
    {v : Option Int} (hne : ¬(l'.toNode = some n.id ∧ l'.toPort = p))
    (h : (getJS n.inputs p).map (fun input => input.link) = some v) :
    (getJS (applyLinkNode l' n).inputs p).map (fun input => input.link) = some v := by
  rw [inputs_applyLinkNode, applyLinkNodeTarget_eq]
  by_cases hid : some n.id = l'.toNode
  · rw [if_pos hid]
    show (getJS (setAtJS n.inputs l'.toPort _) p).map _ = _
    rw [getJS_setAtJS_ne _ _ (fun hc => hne ⟨hid.symm, hc.symm⟩)]
    exact h
  · rw [if_neg hid]
    exact h

/-- The source write of link `l` on its own source node records the link id
in the output's forward references. -/
theorem applyLinkNode_establish_source {l : WorkflowLink} {n : WorkflowNode}
    (hid : some n.id = l.fromNode) (hsome : (getJS n.outputs l.fromPort).isSome = true) :
    (getJS (applyLinkNode l n).outputs l.fromPort).map
      (fun output => decide (l.lid ∈ output.links.getD [])) = some true := by
  rcases Option.isSome_iff_exists.mp hsome with ⟨outp, houtp⟩
  rcases getJS_some_port houtp with ⟨pn, hpn, hge⟩
  unfold applyLinkNode
  rw [applyLinkNodeSource_eq, id_applyLinkNodeTarget, if_pos hid]
  show (getJS (setAtJS (applyLinkNodeTarget l n).outputs l.fromPort _) l.fromPort).map _ = _
  rw [outputs_applyLinkNodeTarget, hpn, getJS_setAtJS_self _ hge]
  rw [hpn] at houtp
  rw [houtp]
  simp

/-- No later write removes an id already recorded in an output's forward
references: other cells are untouched and the same cell only appends. -/
theorem applyLinkNode_preserve_source {l' : WorkflowLink} {n : WorkflowNode} {p : JSNum}
    {i : Int}
    (h : (getJS n.outputs p).map (fun output => decide (i ∈ output.links.getD [])) = some true) :
    (getJS (applyLinkNode l' n).outputs p).map
      (fun output => decide (i ∈ output.links.getD [])) = some true := by
  unfold applyLinkNode
  rw [applyLinkNodeSource_eq, id_applyLinkNodeTarget]
  by_cases hid : some n.id = l'.fromNode
  · rw [if_pos hid]
    by_cases hp : p = l'.fromPort
    · subst hp
      rcases hg : getJS n.outputs l'.fromPort with _ | outp
      · rw [hg] at h; cases h
      · rcases getJS_some_port hg with ⟨pn, hpn, hge⟩
        show (getJS (setAtJS (applyLinkNodeTarget l' n).outputs l'.fromPort _) l'.fromPort).map _ = _
        rw [outputs_applyLinkNodeTarget, hpn, getJS_setAtJS_self _ hge]
        rw [hpn] at hg h
        rw [hg] at h ⊢
        simp only [Option.map_some'] at h ⊢
        have hmem : i ∈ outp.links.getD [] := of_decide_eq_true (by injection h)
        simp [hmem]
    · show (getJS (setAtJS (applyLinkNodeTarget l' n).outputs l'.fromPort _) p).map _ = _
      rw [getJS_setAtJS_ne _ _ hp, outputs_applyLinkNodeTarget]
      exact h
  · rw [if_neg hid, outputs_applyLinkNodeTarget]
    exact h

/-- Folding every denormalization write over a node: a link of the list
targeting this node sets its input back-reference, provided no other link
of the list targets the same `(node, port)`. -/
theorem foldNode_target (ls : List WorkflowLink) :
    ∀ (x : WorkflowNode) (l : WorkflowLink), l ∈ ls →
      ls.Pairwise (fun a c => ¬(a.toNode = c.toNode ∧ a.toPort = c.toPort)) →
      some x.id = l.toNode → (getJS x.inputs l.toPort).isSome = true →
      (getJS (ls.foldl (fun y l' => applyLinkNode l' y) x).inputs l.toPort).map
        (fun input => input.link) = some (some l.lid) := by
  induction ls with
  | nil =>
    intro x l hl
    cases hl
  | cons l0 rest ih =>
    intro x l hl hpw hid hsome
    rw [List.foldl_cons]
    rcases List.mem_cons.mp hl with rfl | hl'
    · have hest := applyLinkNode_establish_target hid hsome
      have hpres : ∀ (ls' : List WorkflowLink),
          (∀ l' ∈ ls', ¬(l'.toNode = l.toNode ∧ l'.toPort = l.toPort)) →
          ∀ (y : WorkflowNode), some y.id = l.toNode →
          (getJS y.inputs l.toPort).map (fun input => input.link) = some (some l.lid) →
          (getJS (ls'.foldl (fun z l' => applyLinkNode l' z) y).inputs l.toPort).map
            (fun input => input.link) = some (some l.lid) := by
        intro ls'
        induction ls' with
        | nil =>
          intro _ y _ hy
          simpa using hy
        | cons a as ih2 =>
          intro hall y hyid hy
          rw [List.foldl_cons]
          apply ih2 (fun l' hl' => hall l' (List.mem_cons_of_mem a hl'))
          · rw [id_applyLinkNode]
            exact hyid
          · apply applyLinkNode_preserve_target
            · intro hc
              exact hall a (List.mem_cons_self a as) ⟨by rw [hc.1, ← hyid, hyid], hc.2⟩
            · exact hy
      apply hpres rest
      · intro l' hl' hc
        exact (List.pairwise_cons.mp hpw).1 l' hl' ⟨hc.1.symm, hc.2.symm⟩
      · rw [id_applyLinkNode]
        exact hid
      · exact hest
    · apply ih (applyLinkNode l0 x) l hl' (List.pairwise_cons.mp hpw).2
      · rw [id_applyLinkNode]
        exact hid
      · rw [getJS_isSome_congr l.toPort (inputsLength_applyLinkNode l0 x)]
        exact hsome

/-- Folding every denormalization write over a node: a link of the list
leaving this node records its id in the output's forward references. -/
theorem foldNode_source (ls : List WorkflowLink) :
    ∀ (x : WorkflowNode) (l : WorkflowLink), l ∈ ls →
      some x.id = l.fromNode → (getJS x.outputs l.fromPort).isSome = true →
      (getJS (ls.foldl (fun y l' => applyLinkNode l' y) x).outputs l.fromPort).map
        (fun output => decide (l.lid ∈ output.links.getD [])) = some true := by
  induction ls with
  | nil =>
    intro x l hl
    cases hl
  | cons l0 rest ih =>
    intro x l hl hid hsome
    rw [List.foldl_cons]
    rcases List.mem_cons.mp hl with rfl | hl'
    · have hest := applyLinkNode_establish_source hid hsome
      have hpres : ∀ (ls' : List WorkflowLink) (y : WorkflowNode),
          (getJS y.outputs l.fromPort).map
            (fun output => decide (l.lid ∈ output.links.getD [])) = some true →
          (getJS (ls'.foldl (fun z l' => applyLinkNode l' z) y).outputs l.fromPort).map
            (fun output => decide (l.lid ∈ output.links.getD [])) = some true := by
        intro ls'
        induction ls' with
        | nil =>
          intro y hy
          simpa using hy
        | cons a as ih2 =>
          intro y hy
          rw [List.foldl_cons]
          exact ih2 _ (applyLinkNode_preserve_source hy)
      exact hpres rest _ hest
    · apply ih (applyLinkNode l0 x) l hl'
      · rw [id_applyLinkNode]
        exact hid
      · rw [getJS_isSome_congr l.fromPort (outputsLength_applyLinkNode l0 x)]
        exact hsome

/-- C2 (amended): invariant I1 holds for the serializer's output whenever
every record's target resolves to a returned node with its input port in
range, every record's source resolves with its output port in range, and no
two records target the same `(toNode, toPort)` input cell. -/
theorem c2_i1_amended (b : WorkflowDefinition) (ns : List FlowNode) (es : List FlowEdge)
    (htgt : ∀ l ∈ (buildWorkflowFromFlow b ns es).links,
        ∃ n ∈ (buildWorkflowFromFlow b ns es).nodes, some n.id = l.toNode ∧
          (getJS n.inputs l.toPort).isSome = true)
    (hsrc : ∀ l ∈ (buildWorkflowFromFlow b ns es).links,
        ∃ n ∈ (buildWorkflowFromFlow b ns es).nodes, some n.id = l.fromNode ∧
          (getJS n.outputs l.fromPort).isSome = true)
    (huniq : (buildWorkflowFromFlow b ns es).links.Pairwise
        (fun a c => ¬(a.toNode = c.toNode ∧ a.toPort = c.toPort))) :
    I1Claim (buildWorkflowFromFlow b ns es) := by
  intro l hl
  have hlinks : (buildWorkflowFromFlow b ns es).links = newLinksOf b ns es :=
    build_links_eq b ns es
  constructor
  · rcases htgt l hl with ⟨n, hn, hid, hsome⟩
    refine ⟨n, hn, hid, ?_⟩
    rw [build_nodes_eq, foldl_applyLink_map] at hn
    rcases List.mem_map.mp hn with ⟨u, _, hun⟩
    have hskel := nodeSkel_foldl_applyLinkNode (newLinksOf b ns es) u
    rw [hun] at hskel
    have hnid : n.id = u.id :=
      congrArg (fun t : Int × List JVal × List (Option NodeWidget) × Nat × Nat => t.1) hskel
    have hlen : n.inputs.length = u.inputs.length :=
      congrArg (fun t : Int × List JVal × List (Option NodeWidget) × Nat × Nat => t.2.2.2.1) hskel
    have huid : some u.id = l.toNode := by rw [← hnid]; exact hid
    have husome : (getJS u.inputs l.toPort).isSome = true := by
      rw [← getJS_isSome_congr l.toPort hlen]
      exact hsome
    have := foldNode_target (newLinksOf b ns es) u l (by rw [← hlinks]; exact hl)
      (by rw [← hlinks]; exact huniq) huid husome
    rw [hun] at this
    exact this
  · rcases hsrc l hl with ⟨n, hn, hid, hsome⟩
    refine ⟨n, hn, hid, ?_⟩
    rw [build_nodes_eq, foldl_applyLink_map] at hn
    rcases List.mem_map.mp hn with ⟨u, _, hun⟩
    have hskel := nodeSkel_foldl_applyLinkNode (newLinksOf b ns es) u
    rw [hun] at hskel
    have hnid : n.id = u.id :=
      congrArg (fun t : Int × List JVal × List (Option NodeWidget) × Nat × Nat => t.1) hskel
    have hlen : n.outputs.length = u.outputs.length :=
      congrArg (fun t : Int × List JVal × List (Option NodeWidget) × Nat × Nat => t.2.2.2.2) hskel
    have huid : some u.id = l.fromNode := by rw [← hnid]; exact hid
    have husome : (getJS u.outputs l.fromPort).isSome = true := by
      rw [← getJS_isSome_congr l.fromPort hlen]
      exact hsome
    have := foldNode_source (newLinksOf b ns es) u l (by rw [← hlinks]; exact hl) huid husome
    rw [hun] at this
    exact this

/-- C2 (counterexample): an edge whose endpoints name nodes absent from the
flow still becomes a link record, so the record's back-references cannot
agree with any node and I1 as claimed fails. -/
theorem c2_i1_claim_counterexample :
    ¬ I1Claim (buildWorkflowFromFlow docEmpty [] [edgeE1]) := by
  decide

/-- C2 (witness): the amended invariant at a concrete well-formed round
trip. -/
theorem c2_i1_amended_witness :
    I1Claim (buildWorkflowFromFlow docGood (convertWorkflowToFlow docGood).1
      (convertWorkflowToFlow docGood).2) :=
  c2_i1_amended docGood (convertWorkflowToFlow docGood).1 (convertWorkflowToFlow docGood).2
    (by decide) (by decide) (by decide)

/-! ## Lemmas about link-id allocation (claim C3) -/

theorem mem_alSet [DecidableEq κ] {m : List (κ × α)} {k : κ} {v : α} {q : κ × α}
    (h : q ∈ alSet m k v) : q = (k, v) ∨ q ∈ m := by
  unfold alSet at h
  split at h
  · rcases List.mem_map.mp h with ⟨q', hq', hq''⟩
    by_cases hk : q'.1 = k
    · rw [if_pos hk] at hq''
      exact Or.inl hq''.symm
    · rw [if_neg hk] at hq''
      exact Or.inr (hq'' ▸ hq')
  · rcases List.mem_append.mp h with hq | hq
    · exact Or.inr hq
    · exact Or.inl (List.mem_singleton.mp hq)

theorem alHas_alSet_of [DecidableEq κ] (m : List (κ × α)) (k k' : κ) (v : α)
    (h : alHas m k' = true) : alHas (alSet m k v) k' = true := by
  rw [alHas_iff] at h ⊢
  rcases h with ⟨p, hp, hk⟩
  by_cases hkey : k' = k
  · subst hkey
    exact ⟨(k', v), alGet_eq_some_mem (alGet_alSet_self m k' v), rfl⟩
  · rcases hget : alGet (alSet m k v) k' with _ | w
    · rw [alGet_alSet_ne m v hkey] at hget
      unfold alGet at hget
      rw [Option.map_eq_none'] at hget
      rw [List.find?_eq_none] at hget
      exact absurd (by simpa using hk) (by simpa using hget p hp)
    · exact ⟨(k', w), alGet_eq_some_mem hget, rfl⟩

theorem alHas_self [DecidableEq κ] (m : List (κ × α)) (k : κ) (v : α) :
    alHas (alSet m k v) k = true := by
  rw [alHas_iff]
  exact ⟨(k, v), alGet_eq_some_mem (alGet_alSet_self m k v), rfl⟩

/-- Invariant carried through the first allocation pass. -/
def Phase1Inv (es : List FlowEdge) (lastLinkId : Int) (acc : StrMap Int × Int) : Prop :=
  (∀ p ∈ acc.1, matchEId p.1 = some p.2) ∧
  (∀ p ∈ acc.1, p.2 < acc.2) ∧
  (lastLinkId + 1 ≤ acc.2) ∧
  (∀ p ∈ acc.1, ∃ e ∈ es, e.id = p.1)

/-- The allocation map is injective as a key-to-value relation. -/
def AlInj (m : StrMap Int) : Prop :=
  ∀ p ∈ m, ∀ q ∈ m, p.2 = q.2 → p.1 = q.1

theorem phase1_all (es : List FlowEdge) (lastLinkId : Int)
    (hinj : ∀ e1 ∈ es, ∀ e2 ∈ es, (matchEId e1.id).isSome = true →
        matchEId e1.id = matchEId e2.id → e1.id = e2.id) :
    Phase1Inv es lastLinkId
      (es.foldl
        (fun (acc : StrMap Int × Int) edge =>
          match matchEId edge.id with
          | some existingLinkId =>
              (mapSet acc.1 edge.id existingLinkId, max acc.2 (existingLinkId + 1))
          | none => acc)
        ([], lastLinkId + 1)) ∧
    AlInj
      (es.foldl
        (fun (acc : StrMap Int × Int) edge =>
          match matchEId edge.id with
          | some existingLinkId =>
              (mapSet acc.1 edge.id existingLinkId, max acc.2 (existingLinkId + 1))
          | none => acc)
        ([], lastLinkId + 1)).1 := by
  apply foldl_invariant (P := fun acc => Phase1Inv es lastLinkId acc ∧ AlInj acc.1)
  · exact ⟨⟨fun p hp => absurd hp (List.not_mem_nil p),
      fun p hp => absurd hp (List.not_mem_nil p), le_refl _,
      fun p hp => absurd hp (List.not_mem_nil p)⟩,
      fun p hp => absurd hp (List.not_mem_nil p)⟩
  · intro acc e he hand
    rcases hand with ⟨hinv, hai⟩
    rcases hm : matchEId e.id with _ | v
    · exact ⟨hinv, hai⟩
    · have hkeymatch : ∀ q ∈ acc.1, q.2 = v → q.1 = e.id := by
        intro q hq hv
        rcases hinv.2.2.2 q hq with ⟨eq', heq', hkey⟩
        apply hkey ▸ hinj eq' heq' e he
        · rw [hinv.1 q hq]
          rfl
        · rw [hinv.1 q hq, hv, hm]
      constructor
      · refine ⟨?_, ?_, ?_, ?_⟩
        · intro p hp
          rcases mem_alSet hp with rfl | hp'
          · exact hm
          · exact hinv.1 p hp'
        · intro p hp
          rcases mem_alSet hp with rfl | hp'
          · simp only []
            omega
          · have := hinv.2.1 p hp'
            simp only []
            omega
        · have := hinv.2.2.1
          simp only []
          omega
        · intro p hp
          rcases mem_alSet hp with rfl | hp'
          · exact ⟨e, he, rfl⟩
          · exact hinv.2.2.2 p hp'
      · intro p hp q hq hv
        rcases mem_alSet hp with rfl | hp' <;> rcases mem_alSet hq with rfl | hq'
        · rfl
        · exact (hkeymatch q hq' hv.symm).symm
        · exact hkeymatch p hp' hv
        · exact hai p hp' q hq' hv

/-- Invariant carried through the second (minting) allocation pass. -/
def Phase2Inv (es : List FlowEdge) (next1 : Int) (acc : StrMap Int × Int) : Prop :=
  (∀ p ∈ acc.1, p.2 < acc.2) ∧
  (next1 ≤ acc.2) ∧
  (∀ p ∈ acc.1, matchEId p.1 = some p.2 ∨ next1 ≤ p.2) ∧
  (∀ p ∈ acc.1, ∃ e ∈ es, e.id = p.1)

theorem phase2_all (es : List FlowEdge) (next1 : Int)
    (start : StrMap Int × Int) (hstart : Phase2Inv es next1 start ∧ AlInj start.1) :
    Phase2Inv es next1
      (es.foldl
        (fun (acc : StrMap Int × Int) edge =>
          if mapHas acc.1 edge.id then acc else (mapSet acc.1 edge.id acc.2, acc.2 + 1))
        start) ∧
    AlInj
      (es.foldl
        (fun (acc : StrMap Int × Int) edge =>
          if mapHas acc.1 edge.id then acc else (mapSet acc.1 edge.id acc.2, acc.2 + 1))
        start).1 := by
  apply foldl_invariant (P := fun acc => Phase2Inv es next1 acc ∧ AlInj acc.1) _ _ _ hstart
  intro acc e he hand
  rcases hand with ⟨hinv, hai⟩
  by_cases hh : mapHas acc.1 e.id = true
  · rw [if_pos hh]
    exact ⟨hinv, hai⟩
  · rw [if_neg hh]
    constructor
    · refine ⟨?_, ?_, ?_, ?_⟩
      · intro p hp
        rcases mem_alSet hp with rfl | hp'
        · simp only []
          omega
        · have := hinv.1 p hp'
          simp only []
          omega
      · have := hinv.2.1
        simp only []
        omega
      · intro p hp
        rcases mem_alSet hp with rfl | hp'
        · right
          exact hinv.2.1
        · exact hinv.2.2.1 p hp'
      · intro p hp
        rcases mem_alSet hp with rfl | hp'
        · exact ⟨e, he, rfl⟩
        · exact hinv.2.2.2 p hp'
    · intro p hp q hq hv
      rcases mem_alSet hp with rfl | hp' <;> rcases mem_alSet hq with rfl | hq'
      · rfl
      · exact absurd (hv.symm.trans rfl) (by
          have := hinv.1 q hq'
          simp only [] at this ⊢
          omega)
      · exact absurd (hv.trans rfl) (by
          have := hinv.1 p hp'
          simp only [] at this ⊢
          omega)
      · exact hai p hp' q hq' hv

theorem fold2_has_mono (es : List FlowEdge) (acc : StrMap Int × Int) (k : String)
    (h : mapHas acc.1 k = true) :
    mapHas
      ((es.foldl
        (fun (acc : StrMap Int × Int) edge =>
          if mapHas acc.1 edge.id then acc else (mapSet acc.1 edge.id acc.2, acc.2 + 1))
        acc)).1 k = true := by
  apply foldl_invariant (P := fun acc : StrMap Int × Int => mapHas acc.1 k = true) _ _ _ h
  intro acc' e _ h'
  by_cases hh : mapHas acc'.1 e.id = true
  · rw [if_pos hh]
    exact h'
  · rw [if_neg hh]
    exact alHas_alSet_of acc'.1 e.id k acc'.2 h'

theorem fold2_has_all (es : List FlowEdge) :
    ∀ (start : StrMap Int × Int), ∀ e ∈ es,
      mapHas
        ((es.foldl
          (fun (acc : StrMap Int × Int) edge =>
            if mapHas acc.1 edge.id then acc else (mapSet acc.1 edge.id acc.2, acc.2 + 1))
          start)).1 e.id = true := by
  induction es with
  | nil =>
    intro start e he
    cases he
  | cons a rest ih =>
    intro start e he
    rw [List.foldl_cons]
    rcases List.mem_cons.mp he with rfl | he'
    · apply fold2_has_mono
      by_cases hh : mapHas start.1 e.id = true
      · rw [if_pos hh]
        exact hh
      · rw [if_neg hh]
        exact alHas_self start.1 e.id start.2
    · exact ih _ e he'

/-- Combined facts about the allocation maps: the key-value relation is
injective, every edge id is allocated, and every allocated id is below the
final watermark. -/
theorem allocate_facts (L : Int) (es : List FlowEdge)
    (hinj : ∀ e1 ∈ es, ∀ e2 ∈ es, (matchEId e1.id).isSome = true →
        matchEId e1.id = matchEId e2.id → e1.id = e2.id) :
    AlInj (allocateLinkIds L es).1 ∧
    (∀ e ∈ es, mapHas (allocateLinkIds L es).1 e.id = true) ∧
    (∀ p ∈ (allocateLinkIds L es).1, p.2 < (allocateLinkIds L es).2) := by
  have hdef : allocateLinkIds L es =
      es.foldl
        (fun (acc : StrMap Int × Int) edge =>
          if mapHas acc.1 edge.id then acc else (mapSet acc.1 edge.id acc.2, acc.2 + 1))
        (es.foldl
          (fun (acc : StrMap Int × Int) edge =>
            match matchEId edge.id with
            | some existingLinkId =>
                (mapSet acc.1 edge.id existingLinkId, max acc.2 (existingLinkId + 1))
            | none => acc)
          ([], L + 1)) := rfl
  have h1 := phase1_all es L hinj
  have hstart : Phase2Inv es
      (es.foldl
        (fun (acc : StrMap Int × Int) edge =>
          match matchEId edge.id with
          | some existingLinkId =>
              (mapSet acc.1 edge.id existingLinkId, max acc.2 (existingLinkId + 1))
          | none => acc)
        ([], L + 1)).2
      (es.foldl
        (fun (acc : StrMap Int × Int) edge =>
          match matchEId edge.id with
          | some existingLinkId =>
              (mapSet acc.1 edge.id existingLinkId, max acc.2 (existingLinkId + 1))
          | none => acc)
        ([], L + 1)) :=
    ⟨h1.1.2.1, le_refl _, fun p hp => Or.inl (h1.1.1 p hp), h1.1.2.2.2⟩
  have h2 := phase2_all es _ _ ⟨hstart, h1.2⟩
  refine ⟨?_, ?_, ?_⟩
  · rw [hdef]
    exact h2.2
  · intro e he
    rw [hdef]
    exact fold2_has_all es _ e he
  · intro p hp
    rw [hdef] at hp ⊢
    exact h2.1.1 p hp

/-- The id of a produced link record is the allocated id for its edge. -/
theorem edgeToLink_lid {m : StrMap Int} {fm : StrMap FlowNode} {e : FlowEdge}
    {r : WorkflowLink} (h : edgeToLink m fm e = some r) :
    r.lid = (mapGet m e.id).getD 0 := by
  simp only [edgeToLink] at h
  by_cases hg : (jsLtZero (parseIntJS ((splitDash (e.sourceHandle.getD "")).getLastD "-1")) = true ∨
      jsLtZero (parseIntJS ((splitDash (e.targetHandle.getD "")).getLastD "-1")) = true)
  · rw [if_pos hg] at h
    cases h
  · rw [if_neg hg] at h
    injection h with h'
    rw [← h']

theorem pairwise_filterMap_of {f : α → Option β} {R : α → α → Prop} {S : β → β → Prop}
    {l : List α}
    (h : ∀ a ∈ l, ∀ b ∈ l, ∀ x y, R a b → f a = some x → f b = some y → S x y)
    (hl : l.Pairwise R) : (l.filterMap f).Pairwise S := by
  induction l with
  | nil => exact List.Pairwise.nil
  | cons a rest ih =>
    rcases List.pairwise_cons.mp hl with ⟨ha, hrest⟩
    have hmem : ∀ a' ∈ rest, a' ∈ a :: rest := fun a' h' => List.mem_cons_of_mem a h'
    have hrec := ih (fun p hp q hq => h p (hmem p hp) q (hmem q hq)) hrest
    rcases hfa : f a with _ | x
    · rw [List.filterMap_cons_none hfa]
      exact hrec
    · rw [List.filterMap_cons_some hfa]
      refine List.Pairwise.cons ?_ hrec
      intro y hy
      rcases List.mem_filterMap.mp hy with ⟨b, hb, hfb⟩
      exact h a (List.mem_cons_self a rest) b (hmem b hb) x y (ha b hb) hfa hfb

theorem id_foldNode (ls : List WorkflowLink) (n : WorkflowNode) :
    (ls.foldl (fun x l => applyLinkNode l x) n).id = n.id :=
  congrArg (fun t : Int × List JVal × List (Option NodeWidget) × Nat × Nat => t.1)
    (nodeSkel_foldl_applyLinkNode ls n)

theorem build_node_ids (b : WorkflowDefinition) (ns : List FlowNode) (es : List FlowEdge) :
    (buildWorkflowFromFlow b ns es).nodes.map (fun n => n.id) =
      (filteredNodesOf b ns).map (fun n => n.id) := by
  rw [build_nodes_eq, foldl_applyLink_map, List.map_map]
  unfold updatedNodesOf
  rw [List.map_map]
  apply List.map_congr_left
  intro wn _
  show ((newLinksOf b ns es).foldl (fun x l => applyLinkNode l x) _).id = wn.id
  rw [id_foldNode]
  show (match mapGet (flowNodeMapOf ns) (intToString wn.id) with
    | some flowNode => nodeUpdate wn flowNode
    | none => wn).id = wn.id
  rcases hget : mapGet (flowNodeMapOf ns) (intToString wn.id) with _ | fn
  · rfl
  · rfl

/-- C3 (amended): after any serializer call in which the flow edges carry
pairwise-distinct ids, no two distinct edge ids match `/^e(\d+)$/` with the
same numeric value, and the flow nodes carry pairwise-distinct ids, the
returned document has pairwise-distinct link ids, pairwise-distinct node
ids, and `last_link_id` at least every link id (the last conjunct needs no
hypothesis). -/
theorem c3_uniqueness_amended (b : WorkflowDefinition) (ns : List FlowNode)
    (es : List FlowEdge)
    (hedges : es.Pairwise (fun a c => a.id ≠ c.id))
    (hinj : ∀ e1 ∈ es, ∀ e2 ∈ es, (matchEId e1.id).isSome = true →
        matchEId e1.id = matchEId e2.id → e1.id = e2.id)
    (hnodes : ns.Pairwise (fun a c => a.id ≠ c.id)) :
    linkIdsDistinct (buildWorkflowFromFlow b ns es) ∧
    nodeIdsDistinct (buildWorkflowFromFlow b ns es) ∧
    lastLinkIdDominates (buildWorkflowFromFlow b ns es) := by
  rcases allocate_facts b.last_link_id es hinj with ⟨hai, hhas, hbound⟩
  refine ⟨?_, ?_, ?_⟩
  · unfold linkIdsDistinct
    rw [build_links_eq]
    unfold newLinksOf
    apply pairwise_filterMap_of _ hedges
    intro e1 he1 e2 he2 r1 r2 hne h1 h2
    have hl1 := edgeToLink_lid h1
    have hl2 := edgeToLink_lid h2
    rcases Option.isSome_iff_exists.mp
      ((alGet_isSome_iff _ _).mpr ((alHas_iff _ _).mp (hhas e1 he1))) with ⟨v1, hv1⟩
    rcases Option.isSome_iff_exists.mp
      ((alGet_isSome_iff _ _).mpr ((alHas_iff _ _).mp (hhas e2 he2))) with ⟨v2, hv2⟩
    intro hceq
    rw [hl1, hl2] at hceq
    have hv1' : mapGet (allocateLinkIds b.last_link_id es).1 e1.id = some v1 := hv1
    have hv2' : mapGet (allocateLinkIds b.last_link_id es).1 e2.id = some v2 := hv2
    rw [hv1', hv2'] at hceq
    simp only [Option.getD_some] at hceq
    exact hne (hai (e1.id, v1) (alGet_eq_some_mem hv1') (e2.id, v2)
      (alGet_eq_some_mem hv2') hceq)
  · unfold nodeIdsDistinct
    have hfiltered : (filteredNodesOf b ns).Pairwise (fun a c => a.id ≠ c.id) := by
      unfold filteredNodesOf
      apply pairwise_filterMap_of _ hnodes
      intro fn1 hfn1 fn2 hfn2 wn1 wn2 hne hg1 hg2
      rw [mapGet_workflowNodeMapOf] at hg1 hg2
      have hkey1 : intToString wn1.id = fn1.id := by simpa using List.find?_some hg1
      have hkey2 : intToString wn2.id = fn2.id := by simpa using List.find?_some hg2
      intro hc
      exact hne (by rw [← hkey1, ← hkey2, hc])
    have hmapped : ((buildWorkflowFromFlow b ns es).nodes.map (fun n => n.id)).Pairwise
        (fun a c => a ≠ c) := by
      rw [build_node_ids]
      exact List.pairwise_map.mpr hfiltered
    exact List.pairwise_map.mp hmapped
  · intro l hl
    rw [build_links_eq] at hl
    unfold newLinksOf at hl
    rcases List.mem_filterMap.mp hl with ⟨e, he, het⟩
    have hlid := edgeToLink_lid het
    rcases Option.isSome_iff_exists.mp
      ((alGet_isSome_iff _ _).mpr ((alHas_iff _ _).mp (hhas e he))) with ⟨v, hv⟩
    have hv' : mapGet (allocateLinkIds b.last_link_id es).1 e.id = some v := hv
    rw [build_lastLinkId_eq, hlid, hv', Option.getD_some]
    have := hbound (e.id, v) (alGet_eq_some_mem hv')
    omega

/-- C3 (counterexample): two edges with the distinct ids `e1` and `e01` both
match the `e{number}` pattern with value 1, so the serializer emits two link
records with the same id. -/
theorem c3_duplicate_link_ids_counterexample :
    ¬ linkIdsDistinct (buildWorkflowFromFlow docEmpty [] [edgeE1, edgeE01]) := by
  decide

/-- C3 (witness): the amended uniqueness at a concrete well-formed round
trip. -/
theorem c3_uniqueness_amended_witness :
    linkIdsDistinct (buildWorkflowFromFlow docGood (convertWorkflowToFlow docGood).1
      (convertWorkflowToFlow docGood).2) ∧
    nodeIdsDistinct (buildWorkflowFromFlow docGood (convertWorkflowToFlow docGood).1
      (convertWorkflowToFlow docGood).2) ∧
    lastLinkIdDominates (buildWorkflowFromFlow docGood (convertWorkflowToFlow docGood).1
      (convertWorkflowToFlow docGood).2) :=
  c3_uniqueness_amended docGood (convertWorkflowToFlow docGood).1
    (convertWorkflowToFlow docGood).2 (by decide) (by decide) (by decide)

/-! ## Frame property of the serializer (claim C9) -/

theorem take_set_of_le (l : List α) (r : Nat) (a : α) (m : Nat) (h : m ≤ r) :
    (l.set r a).take m = l.take m := by
  induction l generalizing r m with
  | nil => rfl
  | cons x xs ih =>
    cases r with
    | zero =>
      have hm : m = 0 := Nat.le_zero.mp h
      rw [hm]
      rfl
    | succ rn =>
      cases m with
      | zero => rfl
      | succ mn =>
        show x :: (xs.set rn a).take mn = x :: xs.take mn
        rw [ih rn mn (Nat.le_of_succ_le_succ h)]

theorem heapWorkflowNodeMap_values (h1 : NodeStore) (refs : List Nat) :
    ∀ p ∈ heapWorkflowNodeMap h1 refs, p.2 ∈ refs := by
  unfold heapWorkflowNodeMap
  apply foldl_invariant
    (P := fun m : StrMap Nat => ∀ p ∈ m, p.2 ∈ refs)
  · intro p hp
    cases hp
  · intro m r hr hm p hp
    rcases hg : h1.get? r with _ | node
    · rw [hg] at hp
      exact hm p hp
    · rw [hg] at hp
      rcases mem_alSet hp with rfl | hp'
      · exact hr
      · exact hm p hp'

theorem take_heapNodeUpdateStep (fm : StrMap FlowNode) (hh : NodeStore) (r : Nat)
    (m : Nat) (hr : m ≤ r) : (heapNodeUpdateStep fm hh r).take m = hh.take m := by
  unfold heapNodeUpdateStep
  rcases hg : hh.get? r with _ | wn
  · rfl
  · show List.take m (match mapGet fm (intToString wn.id) with
      | some flowNode => List.set hh r (nodeUpdate wn flowNode)
      | none => hh) = List.take m hh
    rcases hg2 : mapGet fm (intToString wn.id) with _ | fn
    · rfl
    · exact take_set_of_le hh r (nodeUpdate wn fn) m hr

theorem take_heapLinkTarget (fns : List Nat) (hh : NodeStore) (link : WorkflowLink)
    (m : Nat) (hall : ∀ r ∈ fns, m ≤ r) :
    (heapLinkTarget fns hh link).take m = hh.take m := by
  unfold heapLinkTarget
  rcases hf : fns.find? (fun r =>
      match hh.get? r with
      | some n => decide (some n.id = link.toNode)
      | none => false) with _ | r
  · rfl
  · have hr : r ∈ fns := List.mem_of_find?_eq_some hf
    show List.take m (match hh.get? r with
      | some n =>
          match getJS n.inputs link.toPort with
          | some _ => List.set hh r { n with inputs := setAtJS n.inputs link.toPort (fun input => { input with link := some link.lid }) }
          | none => hh
      | none => hh) = List.take m hh
    rcases hg : hh.get? r with _ | n
    · rfl
    · show List.take m (match getJS n.inputs link.toPort with
        | some _ => List.set hh r { n with inputs := setAtJS n.inputs link.toPort (fun input => { input with link := some link.lid }) }
        | none => hh) = List.take m hh
      rcases hg2 : getJS n.inputs link.toPort with _ | inp
      · rfl
      · exact take_set_of_le hh r _ m (hall r hr)

theorem take_heapLinkSource (fns : List Nat) (hh : NodeStore) (link : WorkflowLink)
    (m : Nat) (hall : ∀ r ∈ fns, m ≤ r) :
    (heapLinkSource fns hh link).take m = hh.take m := by
  unfold heapLinkSource
  rcases hf : fns.find? (fun r =>
      match hh.get? r with
      | some n => decide (some n.id = link.fromNode)
      | none => false) with _ | r
  · rfl
  · have hr : r ∈ fns := List.mem_of_find?_eq_some hf
    show List.take m (match hh.get? r with
      | some n =>
          match getJS n.outputs link.fromPort with
          | some _ => List.set hh r { n with outputs := setAtJS n.outputs link.fromPort (fun output => { output with links := some ((output.links.getD []) ++ [link.lid]) }) }
          | none => hh
      | none => hh) = List.take m hh
    rcases hg : hh.get? r with _ | n
    · rfl
    · show List.take m (match getJS n.outputs link.fromPort with
        | some _ => List.set hh r { n with outputs := setAtJS n.outputs link.fromPort (fun output => { output with links := some ((output.links.getD []) ++ [link.lid]) }) }
        | none => hh) = List.take m hh
      rcases hg2 : getJS n.outputs link.fromPort with _ | outp
      · rfl
      · exact take_set_of_le hh r _ m (hall r hr)

theorem take_heapLinkStep (fns : List Nat) (hh : NodeStore) (link : WorkflowLink)
    (m : Nat) (hall : ∀ r ∈ fns, m ≤ r) :
    (heapLinkStep fns hh link).take m = hh.take m := by
  unfold heapLinkStep
  rw [take_heapLinkSource fns _ link m hall, take_heapLinkTarget fns hh link m hall]

/-- C9: the serializer never mutates its base document.  In the heap
embedding every pre-existing node object lives below index `h.length` and
the clone's fresh objects above it; the theorem states that the store's
prefix of pre-existing objects — in particular every node object of the
base document — is bit-for-bit unchanged by the call, so the only effect is
the returned new document. -/
theorem c9_serializer_never_mutates_base (h : NodeStore) (base : HeapDoc)
    (ns : List FlowNode) (es : List FlowEdge) :
    ((buildWorkflowFromFlowHeap h base ns es).1).take h.length = h := by
  have hrefs : ∀ r ∈ ns.filterMap (fun fn =>
      mapGet (heapWorkflowNodeMap (cloneDocHeap h base).1 (cloneDocHeap h base).2.nodes)
        fn.id), h.length ≤ r := by
    intro r hr
    rcases List.mem_filterMap.mp hr with ⟨fn, _, hget⟩
    have hmem := heapWorkflowNodeMap_values (cloneDocHeap h base).1
      (cloneDocHeap h base).2.nodes (fn.id, r) (alGet_eq_some_mem hget)
    have hrange : (cloneDocHeap h base).2.nodes =
        List.range' h.length (base.nodes.filterMap (fun rr => h.get? rr)).length := rfl
    rw [hrange] at hmem
    rcases List.mem_range'.mp hmem with ⟨i, _, hi⟩
    omega
  have hinit : ((cloneDocHeap h base).1).take h.length = h := by
    show ((h ++ base.nodes.filterMap (fun rr => h.get? rr)).take h.length) = h
    exact List.take_left h _
  show ((es.filterMap (edgeToLink (allocateLinkIds (cloneDocHeap h base).2.last_link_id es).1
      (flowNodeMapOf ns))).foldl
    (heapLinkStep (ns.filterMap (fun fn =>
      mapGet (heapWorkflowNodeMap (cloneDocHeap h base).1 (cloneDocHeap h base).2.nodes) fn.id)))
    ((ns.filterMap (fun fn =>
      mapGet (heapWorkflowNodeMap (cloneDocHeap h base).1 (cloneDocHeap h base).2.nodes) fn.id)).foldl
      (heapNodeUpdateStep (flowNodeMapOf ns)) (cloneDocHeap h base).1)).take h.length = h
  apply foldl_invariant (P := fun hh : NodeStore => hh.take h.length = h)
  · apply foldl_invariant (P := fun hh : NodeStore => hh.take h.length = h)
    · exact hinit
    · intro hh r hrmem hinv
      rw [take_heapNodeUpdateStep (flowNodeMapOf ns) hh r h.length (hrefs r hrmem)]
      exact hinv
  · intro hh link _ hinv
    rw [take_heapLinkStep _ hh link h.length hrefs]
    exact hinv

/-! ## Decimal print/parse round trip (claim C1) -/

theorem digitsValAux_general (l : List Char) :
    ∀ a : Nat, digitsValAux a l = a * 10 ^ l.length + digitsValAux 0 l := by
  induction l with
  | nil =>
    intro a
    simp [digitsValAux]
  | cons c cs ih =>
    intro a
    show digitsValAux (10 * a + (charToDigit c).getD 0) cs =
      a * 10 ^ (c :: cs).length + digitsValAux (10 * 0 + (charToDigit c).getD 0) cs
    rw [ih (10 * a + (charToDigit c).getD 0), ih (10 * 0 + (charToDigit c).getD 0)]
    rw [List.length_cons]
    ring

theorem digitsValAux_append (l1 l2 : List Char) (a : Nat) :
    digitsValAux a (l1 ++ l2) = digitsValAux (digitsValAux a l1) l2 := by
  induction l1 generalizing a with
  | nil => rfl
  | cons c cs ih => exact ih (10 * a + (charToDigit c).getD 0)

theorem charToDigit_digitChar {n : Nat} (h : n < 10) : charToDigit (digitChar n) = some n := by
  interval_cases n <;> rfl

theorem isDigitCh_digitChar {n : Nat} (h : n < 10) : isDigitCh (digitChar n) = true := by
  interval_cases n <;> rfl

theorem not_ws_of_digit {c : Char} (h : isDigitCh c = true) : isWsCh c = false := by
  cases hw : isWsCh c
  · rfl
  · exfalso
    have hcs : c = ' ' ∨ c = '\t' ∨ c = '\n' ∨ c = '\r' := by simpa [isWsCh] using hw
    rcases hcs with rfl | rfl | rfl | rfl <;> exact absurd h (by decide)

theorem digit_ne_dash {c : Char} (h : isDigitCh c = true) : ¬ c = '-' := by
  intro hc
  rw [hc] at h
  exact absurd h (by decide)

theorem digit_ne_plus {c : Char} (h : isDigitCh c = true) : ¬ c = '+' := by
  intro hc
  rw [hc] at h
  exact absurd h (by decide)

theorem natDigitsGo_spec :
    ∀ fuel n : Nat, n < fuel →
      natDigitsGo fuel n ≠ [] ∧ (∀ c ∈ natDigitsGo fuel n, isDigitCh c = true) ∧
      digitsValAux 0 (natDigitsGo fuel n) = n := by
  intro fuel
  induction fuel with
  | zero =>
    intro n h
    exact absurd h (by omega)
  | succ f ih =>
    intro n h
    have hunfold : natDigitsGo (f + 1) n =
        (if n < 10 then [digitChar n] else natDigitsGo f (n / 10) ++ [digitChar (n % 10)]) := rfl
    by_cases h10 : n < 10
    · have hval : natDigitsGo (f + 1) n = [digitChar n] := by
        rw [hunfold, if_pos h10]
      rw [hval]
      refine ⟨by simp, ?_, ?_⟩
      · intro c hc
        rcases List.mem_singleton.mp hc with rfl
        exact isDigitCh_digitChar h10
      · show digitsValAux (10 * 0 + (charToDigit (digitChar n)).getD 0) [] = n
        rw [charToDigit_digitChar h10]
        simp [digitsValAux]
    · have hrec : natDigitsGo (f + 1) n = natDigitsGo f (n / 10) ++ [digitChar (n % 10)] := by
        rw [hunfold, if_neg h10]
      have hlt : n / 10 < f := by
        have := Nat.div_lt_self (by omega : 0 < n) (by omega : 1 < 10)
        omega
      rcases ih (n / 10) hlt with ⟨hne, hdig, hval⟩
      rw [hrec]
      refine ⟨by simp, ?_, ?_⟩
      · intro c hc
        rcases List.mem_append.mp hc with hc' | hc'
        · exact hdig c hc'
        · rcases List.mem_singleton.mp hc' with rfl
          exact isDigitCh_digitChar (Nat.mod_lt n (by omega))
      · rw [digitsValAux_append, hval]
        show 10 * (n / 10) + (charToDigit (digitChar (n % 10))).getD 0 = n
        rw [charToDigit_digitChar (Nat.mod_lt n (by omega))]
        show 10 * (n / 10) + n % 10 = n
        omega

theorem takeWhile_all {p : α → Bool} {l : List α} (h : ∀ c ∈ l, p c = true) :
    l.takeWhile p = l := by
  induction l with
  | nil => rfl
  | cons c cs ih =>
    rw [List.takeWhile_cons, if_pos (h c (List.mem_cons_self c cs))]
    rw [ih (fun c' hc' => h c' (List.mem_cons_of_mem c hc'))]

theorem parseIntJS_digits (l : List Char) (hne : l ≠ [])
    (hall : ∀ c ∈ l, isDigitCh c = true) :
    parseIntJS (String.mk l) = some (Int.ofNat (digitsValAux 0 l)) := by
  cases l with
  | nil => exact absurd rfl hne
  | cons c cs =>
    have hc : isDigitCh c = true := hall c (List.mem_cons_self c cs)
    show parseIntJS (String.mk (c :: cs)) = _
    unfold parseIntJS
    show (match (c :: cs).dropWhile isWsCh with
      | [] => none
      | c :: rest =>
          if c = '-' then
            (if (rest.takeWhile isDigitCh).isEmpty then none
             else some (-(Int.ofNat (digitsValAux 0 (rest.takeWhile isDigitCh)))))
          else if c = '+' then
            (if (rest.takeWhile isDigitCh).isEmpty then none
             else some (Int.ofNat (digitsValAux 0 (rest.takeWhile isDigitCh))))
          else
            (if ((c :: rest).takeWhile isDigitCh).isEmpty then none
             else some (Int.ofNat (digitsValAux 0 ((c :: rest).takeWhile isDigitCh))))) = _
    rw [List.dropWhile_cons, if_neg (by rw [not_ws_of_digit hc]; simp)]
    show (if c = '-' then _ else if c = '+' then _ else
      (if ((c :: cs).takeWhile isDigitCh).isEmpty then none
       else some (Int.ofNat (digitsValAux 0 ((c :: cs).takeWhile isDigitCh))))) = _
    rw [if_neg (digit_ne_dash hc), if_neg (digit_ne_plus hc), takeWhile_all hall]
    rw [if_neg (by simp)]

theorem parseIntJS_intToString (i : Int) : parseIntJS (intToString i) = some i := by
  by_cases hneg : i < 0
  · have hdef : intToString i = "-" ++ natToString i.natAbs := by
      unfold intToString
      rw [if_pos hneg]
    rcases natDigitsGo_spec (i.natAbs + 1) i.natAbs (by omega) with ⟨hne, hdig, hval⟩
    have hdata : ("-" ++ natToString i.natAbs).data = '-' :: natDigitsGo (i.natAbs + 1) i.natAbs := rfl
    rw [hdef]
    unfold parseIntJS
    rw [hdata]
    rw [List.dropWhile_cons, if_neg (by decide)]
    show (if ('-' : Char) = '-' then
        (if ((natDigitsGo (i.natAbs + 1) i.natAbs).takeWhile isDigitCh).isEmpty then none
         else some (-(Int.ofNat (digitsValAux 0 ((natDigitsGo (i.natAbs + 1) i.natAbs).takeWhile isDigitCh)))))
      else _) = some i
    rw [if_pos rfl, takeWhile_all hdig, if_neg (by simpa using hne), hval]
    have : -(Int.ofNat i.natAbs) = i := by
      show -((i.natAbs : Int)) = i
      rw [Int.ofNat_natAbs_of_nonpos (le_of_lt hneg)]
      exact neg_neg i
    rw [this]
  · have hdef : intToString i = natToString i.toNat := by
      unfold intToString
      rw [if_neg hneg]
    rcases natDigitsGo_spec (i.toNat + 1) i.toNat (by omega) with ⟨hne, hdig, hval⟩
    rw [hdef]
    unfold natToString
    rw [parseIntJS_digits _ hne hdig, hval]
    have : Int.ofNat i.toNat = i := by
      show ((i.toNat : Int)) = i
      exact Int.toNat_of_nonneg (by omega)
    rw [this]

theorem intToString_inj {a b : Int} (h : intToString a = intToString b) : a = b := by
  have ha := parseIntJS_intToString a
  have hb := parseIntJS_intToString b
  rw [h, hb] at ha
  injection ha with h'
  exact h'.symm

/-- The digit list of a non-negative integer's decimal rendering. -/
theorem intToString_nonneg_digits {i : Int} (h : 0 ≤ i) :
    (intToString i).data ≠ [] ∧ (∀ c ∈ (intToString i).data, isDigitCh c = true) ∧
    digitsValAux 0 (intToString i).data = i.toNat := by
  have hdef : intToString i = natToString i.toNat := by
    unfold intToString
    rw [if_neg (by omega)]
  rcases natDigitsGo_spec (i.toNat + 1) i.toNat (by omega) with ⟨hne, hdig, hval⟩
  rw [hdef]
  exact ⟨hne, hdig, hval⟩

theorem splitChar_ne_nil (c : Char) (l : List Char) : splitChar c l ≠ [] := by
  induction l with
  | nil => simp [splitChar]
  | cons x xs ih =>
    unfold splitChar
    by_cases hx : x = c
    · rw [if_pos hx]
      simp
    · rw [if_neg hx]
      rcases hs : splitChar c xs with _ | ⟨r, rs⟩
      · simp [hs]
      · simp [hs]

theorem splitChar_not_mem {c : Char} {l : List Char} (h : ∀ x ∈ l, ¬ x = c) :
    splitChar c l = [l] := by
  induction l with
  | nil => rfl
  | cons x xs ih =>
    unfold splitChar
    rw [if_neg (h x (List.mem_cons_self x xs))]
    rw [ih (fun y hy => h y (List.mem_cons_of_mem x hy))]

theorem splitChar_length_ge_two {c : Char} {l : List Char} (h : c ∈ l) :
    2 ≤ (splitChar c l).length := by
  induction l with
  | nil => cases h
  | cons x xs ih =>
    unfold splitChar
    by_cases hx : x = c
    · rw [if_pos hx]
      have hpos : 0 < (splitChar c xs).length :=
        List.length_pos.mpr (splitChar_ne_nil c xs)
      rw [List.length_cons]
      omega
    · rw [if_neg hx]
      have hmem : c ∈ xs := by
        rcases List.mem_cons.mp h with hc | hm
        · exact absurd hc.symm hx
        · exact hm
      rcases hs : splitChar c xs with _ | ⟨r, rs⟩
      · exact absurd hs (splitChar_ne_nil c xs)
      · have h2 := ih hmem
        rw [hs] at h2
        simp only [List.length_cons] at h2 ⊢
        omega

theorem getLastD_irrel {l : List α} (h : l ≠ []) (d1 d2 : α) :
    l.getLastD d1 = l.getLastD d2 := by
  cases l with
  | nil => exact absurd rfl h
  | cons x xs => rw [List.getLastD_cons, List.getLastD_cons]

theorem getLastD_splitChar_append (c : Char) (ys : List Char) :
    ∀ (xs : List Char) (d : List Char),
      (splitChar c (xs ++ c :: ys)).getLastD d = (splitChar c ys).getLastD d := by
  intro xs
  induction xs with
  | nil =>
    intro d
    show (splitChar c (c :: ys)).getLastD d = _
    have hstep : splitChar c (c :: ys) =
        (if c = c then [] :: splitChar c ys
         else match splitChar c ys with
           | r :: rs => (c :: r) :: rs
           | [] => [[c]]) := rfl
    rw [hstep, if_pos rfl, List.getLastD_cons]
    exact getLastD_irrel (splitChar_ne_nil c ys) [] d
  | cons x xs ih =>
    intro d
    show (splitChar c (x :: (xs ++ c :: ys))).getLastD d = _
    have hstep : splitChar c (x :: (xs ++ c :: ys)) =
        (if x = c then [] :: splitChar c (xs ++ c :: ys)
         else match splitChar c (xs ++ c :: ys) with
           | r :: rs => (x :: r) :: rs
           | [] => [[x]]) := rfl
    rw [hstep]
    by_cases hx : x = c
    · rw [if_pos hx, List.getLastD_cons]
      rw [getLastD_irrel (splitChar_ne_nil c (xs ++ c :: ys)) [] d]
      exact ih d
    · rw [if_neg hx]
      rcases hs : splitChar c (xs ++ c :: ys) with _ | ⟨r, rs⟩
      · exact absurd hs (splitChar_ne_nil _ _)
      · have hrs : rs ≠ [] := by
          have h2 := splitChar_length_ge_two
            (c := c) (l := xs ++ c :: ys) (by simp)
          rw [hs] at h2
          intro hrs0
          rw [hrs0] at h2
          simp at h2
        simp only [hs]
        rw [List.getLastD_cons]
        rw [getLastD_irrel hrs (x :: r) r]
        have ihd := ih d
        rw [hs, List.getLastD_cons] at ihd
        exact ihd

theorem getLastD_map {f : α → β} {l : List α} (h : l ≠ []) (d : β) (d' : α) :
    (l.map f).getLastD d = f (l.getLastD d') := by
  induction l generalizing d d' with
  | nil => exact absurd rfl h
  | cons x xs ih =>
    rw [List.map_cons, List.getLastD_cons, List.getLastD_cons]
    cases xs with
    | nil => rfl
    | cons y ys => exact ih (by simp) (f x) x

/-- Parsing the synthetic handle id `a ++ mid ++ digits` (with `mid` ending
in a dash and the suffix a non-negative decimal) recovers the port index. -/
theorem parse_handle (a mid : String) (i : Int) (hi : 0 ≤ i) (pre : List Char)
    (hmid : mid.data = pre ++ ['-']) :
    parseIntJS ((splitDash (a ++ mid ++ intToString i)).getLastD "-1") = some i := by
  rcases intToString_nonneg_digits hi with ⟨hne, hdig, _⟩
  have hdata : (a ++ mid ++ intToString i).data =
      (a.data ++ pre) ++ '-' :: (intToString i).data := by
    rw [String.data_append, String.data_append, hmid]
    simp
  unfold splitDash
  rw [hdata]
  rw [getLastD_map (splitChar_ne_nil '-' _) "-1" []]
  rw [getLastD_splitChar_append '-' (intToString i).data (a.data ++ pre) []]
  rw [splitChar_not_mem (fun x hx => digit_ne_dash (hdig x hx))]
  rw [List.getLastD_cons, List.getLastD_nil]
  show parseIntJS (intToString i) = some i
  exact parseIntJS_intToString i

/-- The converter's edge id `e{linkId}` is recovered by the serializer's
`/^e(\d+)$/` match exactly when the link id is non-negative. -/
theorem matchEId_eid (lid : Int) :
    matchEId ("e" ++ intToString lid) = if 0 ≤ lid then some lid else none := by
  have hdata : ("e" ++ intToString lid).data = 'e' :: (intToString lid).data := by
    rw [String.data_append]
    rfl
  unfold matchEId
  rw [hdata]
  show (if ('e' : Char) = 'e' ∧ (intToString lid).data ≠ [] ∧
      (intToString lid).data.all isDigitCh then
      some (Int.ofNat (digitsValAux 0 (intToString lid).data)) else none) = _
  by_cases hge : 0 ≤ lid
  · rcases intToString_nonneg_digits hge with ⟨hne, hdig, hval⟩
    rw [if_pos ⟨rfl, hne, List.all_eq_true.mpr hdig⟩, if_pos hge, hval]
    have : Int.ofNat lid.toNat = lid := by
      show ((lid.toNat : Int)) = lid
      exact Int.toNat_of_nonneg hge
    rw [this]
  · have hdef : intToString lid = "-" ++ natToString lid.natAbs := by
      unfold intToString
      rw [if_pos (by omega)]
    have hdash : (intToString lid).data = '-' :: (natToString lid.natAbs).data := by
      rw [hdef, String.data_append]
      rfl
    rw [if_neg, if_neg hge]
    intro hcond
    have hall := List.all_eq_true.mp hcond.2.2
    have := hall '-' (by rw [hdash]; exact List.mem_cons_self _ _)
    exact absurd this (by decide)

theorem intMapGet_nodeIdMap_eq (ns : List WorkflowNode) (i : Int) :
    intMapGet (nodeIdMap ns) (some i) = ns.reverse.find? (fun n => n.id = i) := by
  show alGet (nodeIdMap ns) i = _
  unfold nodeIdMap
  rw [show (fun (m : IntMap WorkflowNode) (node : WorkflowNode) => intMapSet m node.id node) =
      (fun m node => alSet m node.id node) from rfl]
  rw [alGet_foldl_set (fun n : WorkflowNode => n.id) (fun n => n) ns [] i,
    alGet_nil, Option.or_none]
  rcases hf : ns.reverse.find? (fun n => n.id = i) with _ | n <;> simp [hf]

theorem getJS_map (f : α → β) (l : List α) (p : JSNum) :
    getJS (l.map f) p = (getJS l p).map f := by
  cases p with
  | none => rfl
  | some n =>
    show (if n < 0 then none else (l.map f).get? n.toNat) =
      (if n < 0 then none else l.get? n.toNat).map f
    by_cases hn : n < 0
    · rw [if_pos hn, if_pos hn, Option.map_none']
    · rw [if_neg hn, if_neg hn, List.get?_map]

theorem find?_congr {p q : α → Bool} (l : List α) (h : ∀ a, p a = q a) :
    l.find? p = l.find? q := by
  induction l with
  | nil => rfl
  | cons x xs ih =>
    by_cases hx : p x = true
    · rw [List.find?_cons_of_pos _ hx, List.find?_cons_of_pos _ (by rw [← h x]; exact hx)]
    · rw [List.find?_cons_of_neg _ hx, List.find?_cons_of_neg _ (by rw [← h x]; exact hx), ih]

/-- Looking up a converter-produced flow node by a rendered id string is the
converter applied to the numeric lookup in the original nodes. -/
theorem mapGet_flowNodeMap_convert (nodes : List WorkflowNode) (a : Int) :
    mapGet (flowNodeMapOf (nodes.map convertNodeToFlowNode)) (intToString a) =
      (nodes.reverse.find? (fun n => n.id = a)).map convertNodeToFlowNode := by
  rw [mapGet_flowNodeMapOf]
  have hrev : (nodes.map convertNodeToFlowNode).reverse =
      nodes.reverse.map convertNodeToFlowNode := by
    rw [List.map_reverse]
  rw [hrev, List.find?_map]
  have hp : ∀ n : WorkflowNode,
      ((fun fn : FlowNode => decide (fn.id = intToString a)) ∘ convertNodeToFlowNode) n =
        (fun n : WorkflowNode => decide (n.id = a)) n := by
    intro n
    show decide (intToString n.id = intToString a) = decide (n.id = a)
    apply decide_eq_decide.mpr
    exact ⟨fun h => intToString_inj h, fun h => by rw [h]⟩
  rw [find?_congr nodes.reverse hp]

theorem jsGeZero_shape {p : JSNum} (h : jsGeZero p = true) :
    ∃ pn : Int, p = some pn ∧ 0 ≤ pn := by
  cases p with
  | none => cases h
  | some n =>
    refine ⟨n, rfl, ?_⟩
    simpa [jsGeZero] using h

theorem intMapGet_some_shape {m : IntMap α} {k : JSNum} {v : α}
    (h : intMapGet m k = some v) : ∃ a : Int, k = some a := by
  cases k with
  | none => cases h
  | some a => exact ⟨a, rfl⟩

theorem filterMap_eq_map_of {f : α → Option β} {g : α → β} {l : List α}
    (h : ∀ a ∈ l, f a = some (g a)) : l.filterMap f = l.map g := by
  induction l with
  | nil => rfl
  | cons x xs ih =>
    rw [List.filterMap_cons_some (h x (List.mem_cons_self x xs)), List.map_cons,
      ih (fun a ha => h a (List.mem_cons_of_mem x ha))]

theorem forall₂_filterMap_of {f : α → Option β} {Rel : α → β → Prop} {l : List α}
    (h : ∀ a ∈ l, ∃ b, f a = some b ∧ Rel a b) : List.Forall₂ Rel l (l.filterMap f) := by
  induction l with
  | nil => exact List.Forall₂.nil
  | cons x xs ih =>
    rcases h x (List.mem_cons_self x xs) with ⟨b, hfb, hrel⟩
    rw [List.filterMap_cons_some hfb]
    exact List.Forall₂.cons hrel (ih (fun a ha => h a (List.mem_cons_of_mem x ha)))

theorem map_eq_of_forall₂ {f : α → γ} {g : β → γ} {P : α → β → Prop} {l1 : List α}
    {l2 : List β} (h : List.Forall₂ (fun a b => f a = g b ∧ P a b) l1 l2) :
    l1.map f = l2.map g := by
  induction h with
  | nil => rfl
  | cons hab _ ih =>
    rw [List.map_cons, List.map_cons, hab.1, ih]

theorem fold1_has_mono (es : List FlowEdge) (acc : StrMap Int × Int) (k : String)
    (h : mapHas acc.1 k = true) :
    mapHas
      ((es.foldl
        (fun (acc : StrMap Int × Int) edge =>
          match matchEId edge.id with
          | some existingLinkId =>
              (mapSet acc.1 edge.id existingLinkId, max acc.2 (existingLinkId + 1))
          | none => acc)
        acc)).1 k = true := by
  apply foldl_invariant (P := fun acc : StrMap Int × Int => mapHas acc.1 k = true) _ _ _ h
  intro acc' e _ h'
  rcases hm : matchEId e.id with _ | v
  · exact h'
  · exact alHas_alSet_of acc'.1 e.id k v h'

theorem fold1_has_matched (es : List FlowEdge) :
    ∀ (start : StrMap Int × Int), ∀ e ∈ es, (matchEId e.id).isSome = true →
      mapHas
        ((es.foldl
          (fun (acc : StrMap Int × Int) edge =>
            match matchEId edge.id with
            | some existingLinkId =>
                (mapSet acc.1 edge.id existingLinkId, max acc.2 (existingLinkId + 1))
            | none => acc)
          start)).1 e.id = true := by
  induction es with
  | nil =>
    intro start e he
    cases he
  | cons a rest ih =>
    intro start e he hm
    rw [List.foldl_cons]
    rcases List.mem_cons.mp he with rfl | he'
    · apply fold1_has_mono
      rcases hme : matchEId e.id with _ | v
      · rw [hme] at hm
        cases hm
      · exact alHas_self start.1 e.id v
    · exact ih _ e he' hm

theorem fold2_get_preserved (es : List FlowEdge) (start : StrMap Int × Int)
    (k : String) (v : Int) (hget : mapGet start.1 k = some v)
    (hhas : mapHas start.1 k = true) :
    mapGet
      ((es.foldl
        (fun (acc : StrMap Int × Int) edge =>
          if mapHas acc.1 edge.id then acc else (mapSet acc.1 edge.id acc.2, acc.2 + 1))
        start)).1 k = some v := by
  have hstep : ∀ (acc : StrMap Int × Int) (e : FlowEdge), e ∈ es →
      (mapGet acc.1 k = some v ∧ mapHas acc.1 k = true) →
      (mapGet ((if mapHas acc.1 e.id then acc
          else (mapSet acc.1 e.id acc.2, acc.2 + 1)) : StrMap Int × Int).1 k = some v ∧
        mapHas ((if mapHas acc.1 e.id then acc
          else (mapSet acc.1 e.id acc.2, acc.2 + 1)) : StrMap Int × Int).1 k = true) := by
    intro acc e _ hp
    by_cases hh : mapHas acc.1 e.id = true
    · rw [if_pos hh]
      exact hp
    · rw [if_neg hh]
      have hne : k ≠ e.id := by
        intro hc
        rw [hc] at hp
        exact hh hp.2
      refine ⟨?_, alHas_alSet_of acc.1 e.id k acc.2 hp.2⟩
      show alGet (alSet acc.1 e.id acc.2) k = some v
      rw [alGet_alSet_ne acc.1 acc.2 hne]
      exact hp.1
  exact (foldl_invariant
    (P := fun acc : StrMap Int × Int => mapGet acc.1 k = some v ∧ mapHas acc.1 k = true)
    _ es start ⟨hget, hhas⟩ hstep).1

/-- The allocation keeps the numeric id of any edge whose id matches the
`e{number}` pattern. -/
theorem allocate_get_matched (L : Int) (es : List FlowEdge) (e : FlowEdge) (v : Int)
    (he : e ∈ es) (hm : matchEId e.id = some v)
    (hinj : ∀ e1 ∈ es, ∀ e2 ∈ es, (matchEId e1.id).isSome = true →
        matchEId e1.id = matchEId e2.id → e1.id = e2.id) :
    mapGet (allocateLinkIds L es).1 e.id = some v := by
  have hdef : allocateLinkIds L es =
      es.foldl
        (fun (acc : StrMap Int × Int) edge =>
          if mapHas acc.1 edge.id then acc else (mapSet acc.1 edge.id acc.2, acc.2 + 1))
        (es.foldl
          (fun (acc : StrMap Int × Int) edge =>
            match matchEId edge.id with
            | some existingLinkId =>
                (mapSet acc.1 edge.id existingLinkId, max acc.2 (existingLinkId + 1))
            | none => acc)
          ([], L + 1)) := rfl
  have h1 := phase1_all es L hinj
  have hhas := fold1_has_matched es ([], L + 1) e he (by rw [hm]; rfl)
  rcases Option.isSome_iff_exists.mp
    ((alGet_isSome_iff _ _).mpr ((alHas_iff _ _).mp hhas)) with ⟨v', hv'⟩
  have hv'' : mapGet
      ((es.foldl
        (fun (acc : StrMap Int × Int) edge =>
          match matchEId edge.id with
          | some existingLinkId =>
              (mapSet acc.1 edge.id existingLinkId, max acc.2 (existingLinkId + 1))
          | none => acc)
        ([], L + 1))).1 e.id = some v' := hv'
  have hveq : v' = v := by
    have hmem := alGet_eq_some_mem hv''
    have := h1.1.1 (e.id, v') hmem
    rw [hm] at this
    injection this with h'
    exact h'.symm
  rw [hdef]
  rw [← hveq]
  exact fold2_get_preserved es _ e.id v' hv'' hhas

instance (D : WorkflowDefinition) (l : WorkflowLink) : Decidable (linkRoundTrippable D l) := by
  unfold linkRoundTrippable
  infer_instance

instance (a b : WorkflowDefinition) : Decidable (sameConnectivity a b) := by
  unfold sameConnectivity
  infer_instance

/-- On converter-produced edges the `e{number}` parse is injective: two edge
ids with the same parsed value are the same id. -/
theorem convEdges_matchEId_inj (ls : List WorkflowLink) :
    ∀ e1 ∈ ls.map edgeOfLink, ∀ e2 ∈ ls.map edgeOfLink, (matchEId e1.id).isSome = true →
      matchEId e1.id = matchEId e2.id → e1.id = e2.id := by
  intro e1 he1 e2 he2 hs heq
  rcases List.mem_map.mp he1 with ⟨l1, _, rfl⟩
  rcases List.mem_map.mp he2 with ⟨l2, _, rfl⟩
  have hid1 : (edgeOfLink l1).id = "e" ++ intToString l1.lid := rfl
  have hid2 : (edgeOfLink l2).id = "e" ++ intToString l2.lid := rfl
  rw [hid1] at hs heq
  rw [hid2] at heq
  rw [hid1, hid2]
  rw [matchEId_eid] at hs heq
  rw [matchEId_eid] at heq
  by_cases hs1 : 0 ≤ l1.lid
  · rw [if_pos hs1] at heq
    by_cases hs2 : 0 ≤ l2.lid
    · rw [if_pos hs2] at heq
      injection heq with hv
      rw [hv]
    · rw [if_neg hs2] at heq
      exact absurd heq (by simp)
  · rw [if_neg hs1] at hs
    exact absurd hs (by simp)

/-- Under full resolution, `edgeToLink` on a converter-produced edge
succeeds and reproduces the link's connectivity tuple; the allocated id is
whatever the allocation map holds for the edge id. -/
theorem edgeToLink_edgeOfLink (D : WorkflowDefinition) (m : StrMap Int) (l : WorkflowLink)
    (a b fp tp : Int) (nf : WorkflowNode) (o : NodeOutput)
    (hfn : l.fromNode = some a) (htn : l.toNode = some b)
    (hfp : l.fromPort = some fp) (htp : l.toPort = some tp)
    (hfpge : 0 ≤ fp) (htpge : 0 ≤ tp)
    (hfind : D.nodes.reverse.find? (fun n => n.id = a) = some nf)
    (hout : getJS nf.outputs (some fp) = some o) (hoty : o.type = l.ty) :
    edgeToLink m (flowNodeMapOf (D.nodes.map convertNodeToFlowNode)) (edgeOfLink l) =
      some { lid := (mapGet m ("e" ++ intToString l.lid)).getD 0
             fromNode := some a, fromPort := some fp
             toNode := some b, toPort := some tp, ty := l.ty } := by
  have hsrc : (edgeOfLink l).source = intToString a := by
    show jsNumToString l.fromNode = intToString a
    rw [hfn]
    rfl
  have htgt : (edgeOfLink l).target = intToString b := by
    show jsNumToString l.toNode = intToString b
    rw [htn]
    rfl
  have hshp : parseIntJS ((splitDash ((edgeOfLink l).sourceHandle.getD "")).getLastD "-1")
      = some fp := by
    have h1 : (edgeOfLink l).sourceHandle.getD "" =
        jsNumToString l.fromNode ++ "-output-" ++ intToString fp := by
      show jsNumToString l.fromNode ++ "-output-" ++ jsNumToString l.fromPort = _
      rw [hfp]
      rfl
    rw [h1]
    exact parse_handle (jsNumToString l.fromNode) "-output-" fp hfpge ("-output".data)
      (by decide)
  have hthp : parseIntJS ((splitDash ((edgeOfLink l).targetHandle.getD "")).getLastD "-1")
      = some tp := by
    have h1 : (edgeOfLink l).targetHandle.getD "" =
        jsNumToString l.toNode ++ "-input-" ++ intToString tp := by
      show jsNumToString l.toNode ++ "-input-" ++ jsNumToString l.toPort = _
      rw [htp]
      rfl
    rw [h1]
    exact parse_handle (jsNumToString l.toNode) "-input-" tp htpge ("-input".data)
      (by decide)
  have hmap : mapGet (flowNodeMapOf (D.nodes.map convertNodeToFlowNode)) (edgeOfLink l).source
      = some (convertNodeToFlowNode nf) := by
    rw [hsrc, mapGet_flowNodeMap_convert, hfind, Option.map_some']
  have houts : getJS (convertNodeToFlowNode nf).data.outputs (some fp) =
      some { name := o.name, type := o.type } := by
    show getJS (nf.outputs.map (fun output =>
        ({ name := output.name, type := output.type } : FlowOutput))) (some fp) = _
    rw [getJS_map, hout, Option.map_some']
  have hguard : ¬(jsLtZero (some fp) = true ∨ jsLtZero (some tp) = true) := by
    intro hc
    rcases hc with hc | hc <;> simp only [jsLtZero, decide_eq_true_eq] at hc <;> omega
  have hty2 : (match mapGet (flowNodeMapOf (D.nodes.map convertNodeToFlowNode))
        (edgeOfLink l).source with
      | some sourceFlowNode =>
          match getJS sourceFlowNode.data.outputs (some fp) with
          | some output => output.type
          | none => "*"
      | none => "*") = l.ty := by
    rw [hmap]
    show (match getJS (convertNodeToFlowNode nf).data.outputs (some fp) with
      | some output => output.type
      | none => "*") = l.ty
    rw [houts]
    exact hoty
  have hpsrc : parseIntJS (edgeOfLink l).source = some a := by
    rw [hsrc]
    exact parseIntJS_intToString a
  have hptgt : parseIntJS (edgeOfLink l).target = some b := by
    rw [htgt]
    exact parseIntJS_intToString b
  have hstep : edgeToLink m (flowNodeMapOf (D.nodes.map convertNodeToFlowNode)) (edgeOfLink l) =
      (if jsLtZero (parseIntJS ((splitDash ((edgeOfLink l).sourceHandle.getD "")).getLastD "-1"))
            ∨ jsLtZero (parseIntJS ((splitDash ((edgeOfLink l).targetHandle.getD "")).getLastD "-1"))
        then none
        else some { lid := (mapGet m (edgeOfLink l).id).getD 0
                    fromNode := parseIntJS (edgeOfLink l).source
                    fromPort :=
                      parseIntJS ((splitDash ((edgeOfLink l).sourceHandle.getD "")).getLastD "-1")
                    toNode := parseIntJS (edgeOfLink l).target
                    toPort :=
                      parseIntJS ((splitDash ((edgeOfLink l).targetHandle.getD "")).getLastD "-1")
                    ty := match mapGet (flowNodeMapOf (D.nodes.map convertNodeToFlowNode))
                        (edgeOfLink l).source with
                      | some sourceFlowNode =>
                          match getJS sourceFlowNode.data.outputs
                              (parseIntJS
                                ((splitDash
                                  ((edgeOfLink l).sourceHandle.getD "")).getLastD "-1")) with
                          | some output => output.type
                          | none => "*"
                      | none => "*" }) := rfl
  rw [hstep, hshp, hthp, hpsrc, hptgt, hty2, if_neg hguard]
  rfl

/-- C1 (amended): on any document whose every link fully resolves — both
port indices are genuine non-negative numbers, both endpoints resolve in
the node table, and the link's recorded type tag agrees with the resolved
source output's tag — the serializer applied to the converter's output
reproduces the links pairwise with the same connectivity tuple, preserving
the id of every link whose id is non-negative (those render as
`e{number}` edge ids); in particular the connectivity tuple sets coincide.
Without the tag-agreement hypothesis the round trip rewrites the tag (see
the counterexample), so the claim's unconditional form is false. -/
theorem c1_round_trip_amended (D : WorkflowDefinition)
    (hwf : ∀ l ∈ D.links, linkRoundTrippable D l) :
    List.Forall₂ (fun a b => connTuple a = connTuple b ∧ (0 ≤ a.lid → b.lid = a.lid))
      D.links (roundTrip D).links ∧ sameConnectivity D (roundTrip D) := by
  have hedges2 : (convertWorkflowToFlow D).2 = D.links.map edgeOfLink := by
    show D.links.filterMap (fun link =>
        match intMapGet (nodeIdMap D.nodes) link.fromNode,
          intMapGet (nodeIdMap D.nodes) link.toNode with
        | some _, some _ => some (edgeOfLink link)
        | _, _ => none) = D.links.map edgeOfLink
    apply filterMap_eq_map_of
    intro l hl
    rcases hwf l hl with ⟨hfpb, htpb, htnb, hty⟩
    rcases hf : intMapGet (nodeIdMap D.nodes) l.fromNode with _ | nf
    · exfalso
      unfold resolvedSourceType at hty
      rw [hf] at hty
      exact Option.noConfusion hty
    · rcases ht : intMapGet (nodeIdMap D.nodes) l.toNode with _ | nt
      · rw [ht] at htnb
        exact absurd htnb (by simp)
      · rfl
  have hR : (roundTrip D).links = D.links.filterMap (fun l =>
      edgeToLink (allocateLinkIds D.last_link_id (D.links.map edgeOfLink)).1
        (flowNodeMapOf (D.nodes.map convertNodeToFlowNode)) (edgeOfLink l)) := by
    rw [show (roundTrip D).links =
        ((convertWorkflowToFlow D).2).filterMap
          (edgeToLink (allocateLinkIds D.last_link_id (convertWorkflowToFlow D).2).1
            (flowNodeMapOf (convertWorkflowToFlow D).1)) from rfl]
    rw [hedges2]
    rw [show (convertWorkflowToFlow D).1 = D.nodes.map convertNodeToFlowNode from rfl]
    rw [List.filterMap_map]
    rfl
  have hper : ∀ l ∈ D.links, ∃ r,
      edgeToLink (allocateLinkIds D.last_link_id (D.links.map edgeOfLink)).1
        (flowNodeMapOf (D.nodes.map convertNodeToFlowNode)) (edgeOfLink l) = some r ∧
      (connTuple l = connTuple r ∧ (0 ≤ l.lid → r.lid = l.lid)) := by
    intro l hl
    rcases hwf l hl with ⟨hfpb, htpb, htnb, hty⟩
    rcases jsGeZero_shape hfpb with ⟨fp, hfpe, hfpge⟩
    rcases jsGeZero_shape htpb with ⟨tp, htpe, htpge⟩
    rcases hf : intMapGet (nodeIdMap D.nodes) l.fromNode with _ | nf
    · exfalso
      unfold resolvedSourceType at hty
      rw [hf] at hty
      exact Option.noConfusion hty
    rcases intMapGet_some_shape hf with ⟨a, hae⟩
    rcases ht : intMapGet (nodeIdMap D.nodes) l.toNode with _ | nt
    · rw [ht] at htnb
      exact absurd htnb (by simp)
    rcases intMapGet_some_shape ht with ⟨b, hbe⟩
    have hty' : (match getJS nf.outputs l.fromPort with
        | some o => some o.type
        | none => none) = some l.ty := by
      unfold resolvedSourceType at hty
      rw [hf] at hty
      exact hty
    rcases hg : getJS nf.outputs l.fromPort with _ | o
    · rw [hg] at hty'
      exact absurd hty' (by simp)
    rw [hg] at hty'
    have h2 : some o.type = some l.ty := hty'
    have hoty : o.type = l.ty := Option.some.inj h2
    rw [hfpe] at hg
    rw [hae, intMapGet_nodeIdMap_eq] at hf
    refine ⟨_, edgeToLink_edgeOfLink D _ l a b fp tp nf o hae hbe hfpe htpe hfpge htpge
      hf hg hoty, ?_, ?_⟩
    · show connTuple l = (some a, some fp, some b, some tp, l.ty)
      unfold connTuple
      rw [hae, hbe, hfpe, htpe]
    · intro hlid
      show (mapGet (allocateLinkIds D.last_link_id (D.links.map edgeOfLink)).1
        ("e" ++ intToString l.lid)).getD 0 = l.lid
      have hm : matchEId ("e" ++ intToString l.lid) = some l.lid := by
        rw [matchEId_eid, if_pos hlid]
      have hmem : edgeOfLink l ∈ D.links.map edgeOfLink := List.mem_map_of_mem _ hl
      have hid : (edgeOfLink l).id = "e" ++ intToString l.lid := rfl
      have hgot := allocate_get_matched D.last_link_id (D.links.map edgeOfLink)
        (edgeOfLink l) l.lid hmem (by rw [hid]; exact hm) (convEdges_matchEId_inj D.links)
      rw [hid] at hgot
      rw [hgot]
      rfl
  have hfa : List.Forall₂ (fun a b => connTuple a = connTuple b ∧ (0 ≤ a.lid → b.lid = a.lid))
      D.links (D.links.filterMap (fun l =>
        edgeToLink (allocateLinkIds D.last_link_id (D.links.map edgeOfLink)).1
          (flowNodeMapOf (D.nodes.map convertNodeToFlowNode)) (edgeOfLink l))) :=
    forall₂_filterMap_of hper
  have hmapeq : D.links.map connTuple = ((roundTrip D).links).map connTuple := by
    rw [hR]
    exact map_eq_of_forall₂ hfa
  refine ⟨?_, ?_, ?_⟩
  · rw [hR]
    exact hfa
  · intro t htm
    rw [← hmapeq]
    exact htm
  · intro t htm
    rw [← hmapeq] at htm
    exact htm

/-- C1 (counterexample): a document whose link carries the tag `LATENT`
while the source output at that port is `IMAGE` round-trips to a document
with a different connectivity tuple set — the serializer rewrites the tag
from the source node, so the unconditional claim fails. -/
theorem c1_round_trip_counterexample :
    ¬ sameConnectivity docTypeMismatch (roundTrip docTypeMismatch) := by
  decide

/-- C1 (witness): the amended round trip at a concrete well-formed
document. -/
theorem c1_round_trip_amended_witness :
    (∀ l ∈ docGood.links, linkRoundTrippable docGood l) ∧
    (List.Forall₂ (fun a b => connTuple a = connTuple b ∧ (0 ≤ a.lid → b.lid = a.lid))
      docGood.links (roundTrip docGood).links ∧
     sameConnectivity docGood (roundTrip docGood)) :=
  ⟨by decide, c1_round_trip_amended docGood (by decide)⟩

end Toucan
